import Mathlib

/-!
# Verification of the cartulary document-management core

A shallow embedding, in Lean 4, of the parts of the cartulary backend that the
specification's claims are about:

* the Python string primitives the chunkers rely on (slicing, `rfind`, `strip`
  with Python's negative-index normalization),
* the sentence-boundary chunker `EmbeddingService.chunk_text` and the
  fixed-stride chunking loop inlined in the `generate_embeddings` task,
* the permission predicate `can_access_document` and the listing query
  `get_accessible_documents_query`,
* the blob-store `save_file` image-to-PDF normalization,
* `create_document` (checksum dedup) and the upload endpoint's status mapping,
* the three pipeline tasks' status/exception behaviour and the
  `extract_metadata` field-update logic,
* `hybrid_search` (Reciprocal Rank Fusion) and the fulltext `search_documents`.

Loops that the source runs unboundedly are given explicit fuel and return
`Option`; `none` means the concrete Python loop does not terminate within the
given fuel.  External effects (hashing, OCR, embedding and LLM providers,
image conversion) are parameters or injected outcomes, mirroring the points
where the source calls out of process.
-/

namespace Cartulary

/-! ## Python string primitives (on `List Char`) -/

/-- Python's whitespace set for `str.strip()` (ASCII part). -/
def pyIsSpace (c : Char) : Bool :=
  c = ' ' || c = '\t' || c = '\n' || c = '\r' || c = '\x0b' || c = '\x0c'

/-- Python `str.strip()`: drop whitespace from both ends. -/
def pyStrip (s : List Char) : List Char :=
  ((s.dropWhile pyIsSpace).reverse.dropWhile pyIsSpace).reverse

/-- `sub` occurs in `t` starting at position `p` (entirely inside `t`). -/
def occursAt (t sub : List Char) (p : Nat) : Bool :=
  sub.isPrefixOf (t.drop p)

/-- Scan candidate start positions `a + k - 1, …, a` from the right, returning
the highest one where `sub` occurs. -/
def rfindAux (t sub : List Char) (a : Nat) : Nat → Option Nat
  | 0 => none
  | k + 1 => if occursAt t sub (a + k) then some (a + k) else rfindAux t sub a k

/-- Highest `p` with `a ≤ p`, `p + |sub| ≤ b` and `sub` occurring at `p`
(indices already normalized to `Nat`). -/
def pyRfindIn (t sub : List Char) (a b : Nat) : Option Nat :=
  if sub.length ≤ b then rfindAux t sub a (b + 1 - sub.length - a) else none

/-- Python index normalization for `str.rfind` / slices: negative indices
count from the end and everything is clamped into `[0, len]`. -/
def pyIndex (len : Nat) (i : Int) : Nat :=
  if i < 0 then (len + i).toNat else min i.toNat len

/-- Python `text.rfind(sub, a, b)`: `-1` when there is no occurrence,
otherwise the (absolute, non-negative) position of the last one. -/
def pyRfind (t sub : List Char) (a b : Int) : Int :=
  match pyRfindIn t sub (pyIndex t.length a) (pyIndex t.length b) with
  | some p => (p : Int)
  | none => -1

/-- Python slice `text[a:b]` with normalization. -/
def pySlice (t : List Char) (a b : Int) : List Char :=
  (t.take (pyIndex t.length b)).drop (pyIndex t.length a)

/-! ## The chunkers

`EmbeddingService.chunk_text` (apps/backend/app/services/embedding_service.py)
and the fixed-stride loop inlined in `generate_embeddings`
(backend/app/tasks/document_tasks.py).  Both `while` loops get explicit fuel.
-/

/-- The sentence-boundary markers, in the order the source's `for` loop
tries them. -/
def puncts : List (List Char) := [['.', ' '], ['!', ' '], ['?', ' '], ['\n', '\n']]

/-- One iteration's boundary selection in `chunk_text`: the `for…else` over the
four markers (first marker in list order whose last occurrence is strictly
after `s` wins), falling back to the last space, then to the raw end `e`. -/
def chunkEnd (t : List Char) (s e : Int) : Int :=
  match puncts.find? (fun p => s < pyRfind t p s e) with
  | some p => pyRfind t p s e + p.length
  | none =>
    let ls := pyRfind t [' '] s e
    if s < ls then ls else e

/-- The `while start < len(text)` loop of `chunk_text`.  `start` is an `Int`
because Python lets `end - chunk_overlap` go negative. -/
def chunkLoop (t : List Char) (cs o : Nat) : Nat → Int → List (List Char) → Option (List (List Char))
  | 0, _, _ => none
  | fuel + 1, start, acc =>
    if start < (t.length : Int) then
      let e0 : Int := start + (cs : Int)
      let e : Int := if e0 < (t.length : Int) then chunkEnd t start e0 else e0
      let chunk := pyStrip (pySlice t start e)
      let acc' := if chunk.isEmpty then acc else acc ++ [chunk]
      let start' : Int := if e < (t.length : Int) then e - (o : Int) else (t.length : Int)
      chunkLoop t cs o fuel start' acc'
    else
      some acc

/-- `EmbeddingService.chunk_text(text, chunk_size, chunk_overlap)`. -/
def chunkText (fuel : Nat) (t : List Char) (cs o : Nat) : Option (List (List Char)) :=
  if t.isEmpty then some []
  else if t.length ≤ cs then some [t]
  else chunkLoop t cs o fuel 0 []

/-- The fixed-stride `while i < len(text)` loop inlined in
`generate_embeddings` ("CRITICAL WORKAROUND … no rfind, no strip"). -/
def simpleLoop (t : List Char) (cs : Nat) : Nat → Nat → List (List Char) → Option (List (List Char))
  | 0, _, _ => none
  | fuel + 1, i, acc =>
    if i < t.length then
      let e := min (i + cs) t.length
      simpleLoop t cs fuel e (acc ++ [(t.take e).drop i])
    else
      some acc

/-- The fixed-stride chunker of `generate_embeddings` as a function. -/
def simpleChunks (fuel : Nat) (t : List Char) (cs : Nat) : Option (List (List Char)) :=
  simpleLoop t cs fuel 0 []

/-- Modelled from claim C6's words: the chunk would end just after the latest
occurrence across ALL four markers (rather than the first marker in list order
that occurs at all).  All four markers have length 2. -/
def chunkEndClaimC6 (t : List Char) (s e : Int) : Int :=
  match (puncts.filterMap fun p =>
      let r := pyRfind t p s e
      if s < r then some r else none).max? with
  | some r => r + 2
  | none =>
    let ls := pyRfind t [' '] s e
    if s < ls then ls else e

/-- The chunking loop as claim C6 describes it (latest marker across all four). -/
def chunkLoopClaimC6 (t : List Char) (cs o : Nat) :
    Nat → Int → List (List Char) → Option (List (List Char))
  | 0, _, _ => none
  | fuel + 1, start, acc =>
    if start < (t.length : Int) then
      let e0 : Int := start + (cs : Int)
      let e : Int := if e0 < (t.length : Int) then chunkEndClaimC6 t start e0 else e0
      let chunk := pyStrip (pySlice t start e)
      let acc' := if chunk.isEmpty then acc else acc ++ [chunk]
      let start' : Int := if e < (t.length : Int) then e - (o : Int) else (t.length : Int)
      chunkLoopClaimC6 t cs o fuel start' acc'
    else
      some acc

/-- The chunker as claim C6 describes it. -/
def chunkTextClaimC6 (fuel : Nat) (t : List Char) (cs o : Nat) : Option (List (List Char)) :=
  if t.isEmpty then some []
  else if t.length ≤ cs then some [t]
  else chunkLoopClaimC6 t cs o fuel 0 []

/-! ## Bool-level occurrence specifications (for the C6 characterization) -/

/-- Some occurrence of `sub` starts strictly after `s` and fits inside `[s, e)`. -/
def occWithinB (t sub : List Char) (s e : Nat) : Bool :=
  (List.range e).any fun q => decide (s < q) && decide (q + sub.length ≤ e) && occursAt t sub q

/-- `r` is the last occurrence of `sub` starting strictly after `s` inside `[s, e)`. -/
def isLastOccB (t sub : List Char) (s e r : Nat) : Bool :=
  occursAt t sub r && decide (s < r) && decide (r + sub.length ≤ e) &&
    ((List.range e).all fun q =>
      !(decide (s < q) && decide (q + sub.length ≤ e) && occursAt t sub q) || decide (q ≤ r))

/-! ## Correctness of the `rfind` scan -/

theorem rfindAux_eq_some {t sub : List Char} {a k p : Nat}
    (h : rfindAux t sub a k = some p) :
    occursAt t sub p = true ∧ a ≤ p ∧ p < a + k ∧
      ∀ q, p < q → q < a + k → occursAt t sub q = false := by
  induction k with
  | zero => simp [rfindAux] at h
  | succ k ih =>
    by_cases hocc : occursAt t sub (a + k) = true
    · simp only [rfindAux, hocc, if_true] at h
      injection h with h
      subst h
      refine ⟨hocc, Nat.le_add_right a k, by omega, fun q hq hq' => ?_⟩
      omega
    · simp only [rfindAux, hocc, if_false, Bool.not_eq_true] at h
      rw [if_neg (by simp [hocc])] at h
      obtain ⟨h1, h2, h3, h4⟩ := ih h
      refine ⟨h1, h2, by omega, fun q hq hq' => ?_⟩
      by_cases hqk : q < a + k
      · exact h4 q hq hqk
      · have : q = a + k := by omega
        subst this
        simpa using hocc

theorem rfindAux_eq_none {t sub : List Char} {a k : Nat}
    (h : rfindAux t sub a k = none) :
    ∀ q, a ≤ q → q < a + k → occursAt t sub q = false := by
  induction k with
  | zero => intro q h1 h2; omega
  | succ k ih =>
    intro q h1 h2
    by_cases hocc : occursAt t sub (a + k) = true
    · simp [rfindAux, hocc] at h
    · rw [rfindAux, if_neg (by simp_all)] at h
      by_cases hqk : q < a + k
      · exact ih h q h1 hqk
      · have : q = a + k := by omega
        subst this
        simpa using hocc

theorem pyIndex_coe {len n : Nat} (h : n ≤ len) : pyIndex len (n : Int) = n := by
  unfold pyIndex
  rw [if_neg (by omega)]
  simp [h]

/-- Membership form of `occWithinB`. -/
theorem occWithinB_iff {t sub : List Char} {s e : Nat} :
    occWithinB t sub s e = true ↔
      ∃ q, q < e ∧ s < q ∧ q + sub.length ≤ e ∧ occursAt t sub q = true := by
  simp only [occWithinB, List.any_eq_true, List.mem_range, Bool.and_eq_true, decide_eq_true_eq]
  constructor
  · rintro ⟨q, hq, ⟨hs, hl⟩, ho⟩
    exact ⟨q, hq, hs, hl, ho⟩
  · rintro ⟨q, hq, hs, hl, ho⟩
    exact ⟨q, hq, ⟨hs, hl⟩, ho⟩

/-- The Python idiom `text.rfind(sub, s, e) > s` holds exactly when some
occurrence of `sub` starts strictly after `s` and fits in `[s, e)`. -/
theorem pyRfind_pos_iff {t sub : List Char} {s e : Nat}
    (hsub : 0 < sub.length) (hs : s ≤ e) (he : e ≤ t.length) :
    ((s : Int) < pyRfind t sub (s : Int) (e : Int)) ↔ occWithinB t sub s e = true := by
  have hsl : s ≤ t.length := le_trans hs he
  unfold pyRfind pyRfindIn
  rw [pyIndex_coe hsl, pyIndex_coe he]
  by_cases hb : sub.length ≤ e
  · rw [if_pos hb]
    rcases hfind : rfindAux t sub s (e + 1 - sub.length - s) with _ | p
    · simp only [Int.lt_iff_add_one_le]
      constructor
      · intro h; omega
      · intro h
        rw [occWithinB_iff] at h
        obtain ⟨q, hq, hsq, hql, ho⟩ := h
        have := rfindAux_eq_none hfind q (by omega) (by omega)
        simp [this] at ho
    · obtain ⟨h1, h2, h3, h4⟩ := rfindAux_eq_some hfind
      simp only [Nat.cast_lt]
      constructor
      · intro h
        rw [occWithinB_iff]
        exact ⟨p, by omega, h, by omega, h1⟩
      · intro h
        rw [occWithinB_iff] at h
        obtain ⟨q, hq, hsq, hql, ho⟩ := h
        by_cases hpq : q ≤ p
        · omega
        · have := h4 q (by omega) (by omega)
          simp [this] at ho
  · rw [if_neg hb]
    simp only [Int.lt_iff_add_one_le]
    constructor
    · intro h; omega
    · intro h
      rw [occWithinB_iff] at h
      obtain ⟨q, hq, hsq, hql, ho⟩ := h
      omega

/-- When `rfind` reports a hit strictly after `s`, its value is the last
occurrence in the window. -/
theorem pyRfind_spec {t sub : List Char} {s e : Nat}
    (hs : s ≤ e) (he : e ≤ t.length)
    (h : (s : Int) < pyRfind t sub (s : Int) (e : Int)) :
    ∃ r : Nat, pyRfind t sub (s : Int) (e : Int) = (r : Int) ∧
      isLastOccB t sub s e r = true := by
  have hsl : s ≤ t.length := le_trans hs he
  unfold pyRfind pyRfindIn at h ⊢
  rw [pyIndex_coe hsl, pyIndex_coe he] at h ⊢
  by_cases hb : sub.length ≤ e
  · rw [if_pos hb] at h ⊢
    rcases hfind : rfindAux t sub s (e + 1 - sub.length - s) with _ | p
    · rw [hfind] at h
      have h' : (s : Int) < -1 := h
      omega
    · rw [hfind] at h
      obtain ⟨h1, h2, h3, h4⟩ := rfindAux_eq_some hfind
      have h' : (s : Int) < (p : Int) := h
      have h : s < p := by exact_mod_cast h'
      refine ⟨p, rfl, ?_⟩
      unfold isLastOccB
      rw [h1]
      simp only [Bool.true_and, Bool.and_eq_true, decide_eq_true_eq, List.all_eq_true,
        List.mem_range]
      refine ⟨⟨h, by omega⟩, fun q hq => ?_⟩
      by_cases hpq : q ≤ p
      · simp [hpq]
      · by_cases hqe : q + sub.length ≤ e
        · by_cases hsq : s < q
          · have hocc := h4 q (by omega) (by omega)
            simp [hocc]
          · simp [hsq]
        · simp [hqe]
  · rw [if_neg hb] at h
    have h' : (s : Int) < -1 := h
    omega

/-! ## Chunker theorems (claims C5, C6, C7) -/

/-- On `"abc defgh"` with `chunk_size = 5 > overlap = 3`, one loop iteration of
`chunk_text` leaves the cursor at 0: the chosen boundary is the space at
index 3, and `start' = 3 - 3 = 0`. -/
theorem chunkLoop_c5_step (fuel : Nat) (acc : List (List Char)) :
    chunkLoop "abc defgh".toList 5 3 (fuel + 1) 0 acc =
      chunkLoop "abc defgh".toList 5 3 fuel 0 (acc ++ [['a', 'b', 'c']]) := rfl

/-- The loop from claim C5's failing input never finishes, whatever the fuel. -/
theorem chunkLoop_c5_none : ∀ fuel acc, chunkLoop "abc defgh".toList 5 3 fuel 0 acc = none
  | 0, _ => rfl
  | fuel + 1, acc => by
      rw [chunkLoop_c5_step]
      exact chunkLoop_c5_none fuel (acc ++ [['a', 'b', 'c']])

/-- C5: `chunk_text` does NOT terminate for every text and every pair
`chunk_size > overlap ≥ 0`.  On `text = "abc defgh"`, `chunk_size = 5`,
`overlap = 3` the cursor is reset to `end - overlap = 3 - 3 = 0` on every
iteration, so the `while start < len(text)` loop runs forever: no amount of
fuel makes the embedded loop return. -/
theorem C5_chunk_text_nonterminating :
    (5 : Nat) > 3 ∧ (3 : Nat) ≥ 0 ∧
      ∀ fuel, chunkText fuel "abc defgh".toList 5 3 = none := by
  refine ⟨by decide, by decide, fun fuel => ?_⟩
  show chunkLoop "abc defgh".toList 5 3 fuel 0 [] = none
  exact chunkLoop_c5_none fuel []

/-- C6 counterexample: on `"a. b! cdefgh"` with `chunk_size = 7`, `overlap = 0`
the window `[0, 7)` contains `". "` at index 1 and `"! "` at index 4.  The
latest marker across all four is `"! "`, so the claim's rule would produce the
first chunk `"a. b!"`; the code tries the markers in the fixed order
`". ", "! ", "? ", "\n\n"` and, finding `". "`, cuts at `"a."`. -/
theorem C6_counterexample :
    chunkText 20 "a. b! cdefgh".toList 7 0 =
        some ["a.".toList, "b!".toList, "cdefgh".toList] ∧
      chunkTextClaimC6 20 "a. b! cdefgh".toList 7 0 =
        some ["a. b!".toList, "cdefgh".toList] ∧
      (["a.".toList, "b!".toList, "cdefgh".toList] : List (List Char)) ≠
        ["a. b!".toList, "cdefgh".toList] := by
  refine ⟨by decide, by decide, by decide⟩

theorem find?_append_of_forall_false {α : Type} (f : α → Bool) :
    ∀ (pre : List α) (x : α) (post : List α),
      (∀ q ∈ pre, f q = false) → f x = true →
      (pre ++ x :: post).find? f = some x
  | [], x, post, _, hx => by simp [List.find?, hx]
  | a :: pre, x, post, hpre, hx => by
      have ha : f a = false := hpre a (List.mem_cons_self a pre)
      simp only [List.cons_append, List.find?, ha]
      exact find?_append_of_forall_false f pre x post
        (fun q hq => hpre q (List.mem_cons_of_mem a hq)) hx

/-- Every sentence marker has length 2. -/
theorem puncts_length : ∀ p ∈ puncts, p.length = 2 := by decide

/-- C6 (amended): when the tentative end `s + chunk_size` is `e ≤ len`, the
code ends the chunk just after the LAST occurrence of the FIRST marker in the
fixed order `". ", "! ", "? ", "\n\n"` that occurs at all (strictly after `s`,
fitting inside `[s, e)`); only when none of the four markers occurs does it
fall back to the last space strictly after `s`; otherwise it keeps the raw
boundary `e`. -/
theorem C6_amended (t : List Char) (s e : Nat) (hs : s ≤ e) (he : e ≤ t.length) :
    (∀ pre p post, puncts = pre ++ p :: post →
        (∀ q ∈ pre, occWithinB t q s e = false) →
        occWithinB t p s e = true →
        ∃ r : Nat, isLastOccB t p s e r = true ∧
          chunkEnd t (s : Int) (e : Int) = (r : Int) + (p.length : Int)) ∧
    ((∀ p ∈ puncts, occWithinB t p s e = false) →
        occWithinB t [' '] s e = true →
        ∃ r : Nat, isLastOccB t [' '] s e r = true ∧
          chunkEnd t (s : Int) (e : Int) = (r : Int)) ∧
    ((∀ p ∈ puncts, occWithinB t p s e = false) →
        occWithinB t [' '] s e = false →
        chunkEnd t (s : Int) (e : Int) = (e : Int)) := by
  have key : ∀ p : List Char, 0 < p.length →
      (decide ((s : Int) < pyRfind t p (s : Int) (e : Int)) = false ↔
        occWithinB t p s e = false) := by
    intro p hp
    rw [decide_eq_false_iff_not, pyRfind_pos_iff hp hs he]
    simp
  have mkfind : (∀ p ∈ puncts, occWithinB t p s e = false) →
      puncts.find?
        (fun q => decide ((s : Int) < pyRfind t q (s : Int) (e : Int))) = none := by
    intro hnone
    rw [List.find?_eq_none]
    intro q hq
    have hqlen : q.length = 2 := puncts_length q hq
    simp only [Bool.not_eq_true]
    rw [key q (by omega)]
    exact hnone q hq
  refine ⟨?_, ?_, ?_⟩
  · intro pre p post hsplit hpre hp
    have hplen : p.length = 2 := puncts_length p (by rw [hsplit]; simp)
    have hfind : puncts.find?
        (fun q => decide ((s : Int) < pyRfind t q (s : Int) (e : Int))) = some p := by
      rw [hsplit]
      refine find?_append_of_forall_false _ pre p post (fun q hq => ?_) ?_
      · have hqlen : q.length = 2 := puncts_length q (by rw [hsplit]; simp [hq])
        rw [key q (by omega)]
        exact hpre q hq
      · rw [decide_eq_true_eq, pyRfind_pos_iff (by omega) hs he]
        exact hp
    have hpos : (s : Int) < pyRfind t p (s : Int) (e : Int) := by
      rw [pyRfind_pos_iff (by omega) hs he]
      exact hp
    obtain ⟨r, hr, hlast⟩ := pyRfind_spec hs he hpos
    refine ⟨r, hlast, ?_⟩
    unfold chunkEnd
    rw [hfind]
    show pyRfind t p (s : Int) (e : Int) + (p.length : Int) = (r : Int) + (p.length : Int)
    rw [hr]
  · intro hnone hsp
    have hpos : (s : Int) < pyRfind t [' '] (s : Int) (e : Int) := by
      rw [pyRfind_pos_iff (by simp) hs he]
      exact hsp
    obtain ⟨r, hr, hlast⟩ := pyRfind_spec hs he hpos
    refine ⟨r, hlast, ?_⟩
    unfold chunkEnd
    rw [mkfind hnone]
    show (if (s : Int) < pyRfind t [' '] (s : Int) (e : Int)
        then pyRfind t [' '] (s : Int) (e : Int) else (e : Int)) = (r : Int)
    rw [if_pos hpos, hr]
  · intro hnone hsp
    have hneg : ¬ ((s : Int) < pyRfind t [' '] (s : Int) (e : Int)) := by
      rw [pyRfind_pos_iff (by simp) hs he]
      simp [hsp]
    unfold chunkEnd
    rw [mkfind hnone]
    show (if (s : Int) < pyRfind t [' '] (s : Int) (e : Int)
        then pyRfind t [' '] (s : Int) (e : Int) else (e : Int)) = (e : Int)
    rw [if_neg hneg]

theorem pyIndex_le_length (len : Nat) (i : Int) : pyIndex len i ≤ len := by
  unfold pyIndex
  split <;> omega

theorem length_pySlice (t : List Char) (a b : Int) :
    (pySlice t a b).length = pyIndex t.length b - pyIndex t.length a := by
  unfold pySlice
  rw [List.length_drop, List.length_take]
  have := pyIndex_le_length t.length b
  omega

theorem pyIndex_add_le (len : Nat) (s : Int) (c : Nat) :
    pyIndex len (s + (c : Int)) ≤ pyIndex len s + c := by
  unfold pyIndex
  split <;> split <;> omega

theorem length_dropWhile_le (p : Char → Bool) :
    ∀ l : List Char, (l.dropWhile p).length ≤ l.length
  | [] => le_refl _
  | a :: l => by
      simp only [List.dropWhile_cons]
      split
      · exact Nat.le_succ_of_le (length_dropWhile_le p l)
      · simp

theorem length_pyStrip_le (l : List Char) : (pyStrip l).length ≤ l.length := by
  unfold pyStrip
  rw [List.length_reverse]
  calc ((l.dropWhile pyIsSpace).reverse.dropWhile pyIsSpace).length
      ≤ (l.dropWhile pyIsSpace).reverse.length := length_dropWhile_le _ _
    _ = (l.dropWhile pyIsSpace).length := List.length_reverse _
    _ ≤ l.length := length_dropWhile_le _ _

theorem pyRfind_lower (t sub : List Char) (a b : Int) : -1 ≤ pyRfind t sub a b := by
  unfold pyRfind
  split <;> omega

theorem pyRfind_cases (t sub : List Char) (a b : Int) :
    pyRfind t sub a b = -1 ∨
      ∃ q : Nat, pyRfind t sub a b = (q : Int) ∧ pyIndex t.length a ≤ q ∧
        q + sub.length ≤ pyIndex t.length b := by
  unfold pyRfind pyRfindIn
  by_cases hb : sub.length ≤ pyIndex t.length b
  · rw [if_pos hb]
    rcases hfind : rfindAux t sub (pyIndex t.length a)
        (pyIndex t.length b + 1 - sub.length - pyIndex t.length a) with _ | p
    · left; rfl
    · right
      obtain ⟨_, h2, h3, _⟩ := rfindAux_eq_some hfind
      exact ⟨p, rfl, h2, by omega⟩
  · rw [if_neg hb]
    left; rfl

/-- Each chunk cut by the boundary search spans at most `chunk_size`
characters, whatever (possibly negative) cursor Python arrived at. -/
theorem chunkEnd_slice_le (t : List Char) (s : Int) (cs : Nat) (hcs : 0 < cs) :
    (pySlice t s (chunkEnd t s (s + (cs : Int)))).length ≤ cs := by
  have hb' : pyIndex t.length (s + (cs : Int)) ≤ pyIndex t.length s + cs :=
    pyIndex_add_le t.length s cs
  unfold chunkEnd
  rcases hfind : puncts.find?
      (fun p => decide (s < pyRfind t p s (s + (cs : Int)))) with _ | p
  · have hdot : ¬ (s < pyRfind t ['.', ' '] s (s + (cs : Int))) := by
      have := List.find?_eq_none.mp hfind ['.', ' '] (by simp [puncts])
      simpa using this
    have hm1 : -1 ≤ pyRfind t ['.', ' '] s (s + (cs : Int)) := pyRfind_lower t _ s _
    by_cases hls : s < pyRfind t [' '] s (s + (cs : Int))
    · show (pySlice t s (if s < pyRfind t [' '] s (s + (cs : Int))
          then pyRfind t [' '] s (s + (cs : Int)) else s + (cs : Int))).length ≤ cs
      rw [if_pos hls]
      rcases pyRfind_cases t [' '] s (s + (cs : Int)) with hnone | ⟨q, heq, hq1, hq2⟩
      · rw [hnone] at hls
        omega
      · rw [heq, length_pySlice]
        have hql : q ≤ t.length := by
          have := pyIndex_le_length t.length (s + (cs : Int))
          simp at hq2
          omega
        rw [pyIndex_coe hql]
        simp at hq2
        omega
    · show (pySlice t s (if s < pyRfind t [' '] s (s + (cs : Int))
          then pyRfind t [' '] s (s + (cs : Int)) else s + (cs : Int))).length ≤ cs
      rw [if_neg hls, length_pySlice]
      omega
  · have hplen : p.length = 2 := puncts_length p (List.mem_of_find?_eq_some hfind)
    show (pySlice t s (pyRfind t p s (s + (cs : Int)) + (p.length : Int))).length ≤ cs
    rcases pyRfind_cases t p s (s + (cs : Int)) with hnone | ⟨q, heq, hq1, hq2⟩
    · rw [hnone, hplen]
      have h1 : (-1 + ((2 : Nat) : Int)) = 1 := by norm_num
      rw [h1, length_pySlice]
      have h2 : pyIndex t.length 1 ≤ 1 := by
        unfold pyIndex
        split <;> omega
      omega
    · rw [heq]
      have hcast : ((q : Int) + (p.length : Int)) = ((q + p.length : Nat) : Int) := by
        push_cast
        ring
      have hql : q + p.length ≤ t.length := by
        have := pyIndex_le_length t.length (s + (cs : Int))
        omega
      rw [hcast, length_pySlice, pyIndex_coe hql]
      omega

/-- All chunks appended by the `chunk_text` loop have length at most
`chunk_size`. -/
theorem chunkLoop_sizes (t : List Char) (cs o : Nat) (hcs : 0 < cs) :
    ∀ fuel (s : Int) acc r, (∀ c ∈ acc, c.length ≤ cs) →
      chunkLoop t cs o fuel s acc = some r → ∀ c ∈ r, c.length ≤ cs := by
  intro fuel
  induction fuel with
  | zero => intro s acc r _ h; simp [chunkLoop] at h
  | succ fuel ih =>
    intro s acc r hacc h
    by_cases hst : s < (t.length : Int)
    · rw [chunkLoop, if_pos hst] at h
      refine ih _ _ r (fun c hc => ?_) h
      by_cases hemp : (pyStrip (pySlice t s (if s + (cs : Int) < (t.length : Int)
          then chunkEnd t s (s + (cs : Int)) else s + (cs : Int)))).isEmpty
      · rw [if_pos hemp] at hc
        exact hacc c hc
      · rw [if_neg hemp] at hc
        rcases List.mem_append.mp hc with hc | hc
        · exact hacc c hc
        · have hce : c = pyStrip (pySlice t s (if s + (cs : Int) < (t.length : Int)
              then chunkEnd t s (s + (cs : Int)) else s + (cs : Int))) := by
            simpa using hc
          subst hce
          refine le_trans (length_pyStrip_le _) ?_
          by_cases hlt : s + (cs : Int) < (t.length : Int)
          · rw [if_pos hlt]
            exact chunkEnd_slice_le t s cs hcs
          · rw [if_neg hlt, length_pySlice]
            have := pyIndex_add_le t.length s cs
            omega
    · rw [chunkLoop, if_neg hst] at h
      injection h with h
      subst h
      exact hacc

/-- The fixed-stride loop of `generate_embeddings` terminates with enough fuel
and partitions the text exactly: the chunks concatenate to the input, are
non-empty, and respect the size bound. -/
theorem simpleLoop_complete (t : List Char) (cs : Nat) (hcs : 0 < cs) :
    ∀ fuel i acc, t.length - i < fuel →
      ∃ r, simpleLoop t cs fuel i acc = some (acc ++ r) ∧
        r.flatten = t.drop i ∧ ∀ c ∈ r, c ≠ [] ∧ c.length ≤ cs := by
  intro fuel
  induction fuel with
  | zero => intro i acc h; omega
  | succ fuel ih =>
    intro i acc h
    by_cases hi : i < t.length
    · have hstep : t.length - min (i + cs) t.length < fuel := by omega
      obtain ⟨r, hr, hj, hp⟩ :=
        ih (min (i + cs) t.length) (acc ++ [(t.take (min (i + cs) t.length)).drop i]) hstep
      refine ⟨(t.take (min (i + cs) t.length)).drop i :: r, ?_, ?_, ?_⟩
      · rw [simpleLoop, if_pos hi, hr]
        simp
      · have hx : (t.take (min (i + cs) t.length)).drop i =
            (t.drop i).take (min (i + cs) t.length - i) := by
          rw [List.drop_take]
        rw [List.flatten_cons, hj, hx]
        have hdd : t.drop (min (i + cs) t.length) =
            (t.drop i).drop (min (i + cs) t.length - i) := by
          rw [List.drop_drop]
          congr 1
          omega
        rw [hdd, List.take_append_drop]
      · intro c hc
        rcases List.mem_cons.mp hc with hc | hc
        · subst hc
          constructor
          · rw [← List.length_pos, List.length_drop, List.length_take]
            omega
          · rw [List.length_drop, List.length_take]
            omega
        · exact hp c hc
    · refine ⟨[], ?_, ?_, by simp⟩
      · rw [simpleLoop, if_neg hi]
        simp
      · rw [List.drop_eq_nil_of_le (by omega)]
        rfl

/-- `dropWhile` is idempotent. -/
theorem dropWhile_dropWhile (p : Char → Bool) :
    ∀ l : List Char, (l.dropWhile p).dropWhile p = l.dropWhile p
  | [] => rfl
  | a :: l => by
      rw [List.dropWhile_cons]
      by_cases ha : p a = true
      · rw [if_pos ha]
        exact dropWhile_dropWhile p l
      · rw [if_neg ha, List.dropWhile_cons, if_neg ha]

/-- The head surviving a `dropWhile` fails the predicate. -/
theorem dropWhile_head_false (p : Char → Bool) :
    ∀ (l : List Char) (a : Char) (s : List Char),
      l.dropWhile p = a :: s → p a = false
  | [], _, _, h => by cases h
  | b :: l, a, s, h => by
      rw [List.dropWhile_cons] at h
      by_cases hb : p b = true
      · rw [if_pos hb] at h
        exact dropWhile_head_false p l a s h
      · rw [if_neg hb] at h
        injection h with h1 _
        subst h1
        simpa using hb

/-- `dropWhile` leaves a list whose head already fails the predicate alone. -/
theorem dropWhile_eq_self_of_head (p : Char → Bool) :
    ∀ v : List Char, (∀ a s, v = a :: s → p a = false) → v.dropWhile p = v
  | [], _ => rfl
  | a :: s, h => by
      rw [List.dropWhile_cons, if_neg (by simp [h a s rfl])]

/-- `dropWhile` removes a prefix: the remainder is a suffix. -/
theorem dropWhile_isSuffix (p : Char → Bool) :
    ∀ l : List Char, ∃ pre, pre ++ l.dropWhile p = l
  | [] => ⟨[], rfl⟩
  | a :: l => by
      rw [List.dropWhile_cons]
      by_cases ha : p a = true
      · rw [if_pos ha]
        obtain ⟨pre, hp⟩ := dropWhile_isSuffix p l
        exact ⟨a :: pre, by rw [List.cons_append, hp]⟩
      · rw [if_neg ha]
        exact ⟨[], rfl⟩

/-- Trimming the right end of a left-trimmed list keeps its head trimmed. -/
theorem head_of_rstrip (p : Char → Bool) (u : List Char)
    (hhead : ∀ a s, u = a :: s → p a = false) :
    ∀ a s, (u.reverse.dropWhile p).reverse = a :: s → p a = false := by
  intro a s hwr
  obtain ⟨pre, hp⟩ := dropWhile_isSuffix p u.reverse
  have hd : u.reverse.dropWhile p = (a :: s).reverse := by
    rw [← hwr, List.reverse_reverse]
  have h1 : pre ++ (a :: s).reverse = u.reverse := by
    rw [← hd]
    exact hp
  have h2 := congrArg List.reverse h1
  simp only [List.reverse_append, List.reverse_reverse] at h2
  exact hhead a (s ++ pre.reverse) (by rw [← h2]; rfl)

/-- Python's `strip` is idempotent: a stripped string is its own strip. -/
theorem pyStrip_idem (l : List Char) : pyStrip (pyStrip l) = pyStrip l := by
  have hA : (pyStrip l).dropWhile pyIsSpace = pyStrip l :=
    dropWhile_eq_self_of_head pyIsSpace (pyStrip l)
      (head_of_rstrip pyIsSpace (l.dropWhile pyIsSpace)
        (fun a s h => dropWhile_head_false pyIsSpace l a s h))
  have hB : (pyStrip l).reverse.dropWhile pyIsSpace = (pyStrip l).reverse := by
    unfold pyStrip
    rw [List.reverse_reverse]
    exact dropWhile_dropWhile pyIsSpace _
  calc pyStrip (pyStrip l)
      = (((pyStrip l).dropWhile pyIsSpace).reverse.dropWhile pyIsSpace).reverse := rfl
    _ = ((pyStrip l).reverse.dropWhile pyIsSpace).reverse := by rw [hA]
    _ = ((pyStrip l).reverse).reverse := by rw [hB]
    _ = pyStrip l := List.reverse_reverse _

/-- Every chunk the `while` loop of `chunk_text` appends is
`text[start:end].strip()` guarded by `if chunk:`: non-empty and already
stripped. -/
theorem chunkLoop_stripped (t : List Char) (cs o : Nat) :
    ∀ fuel (s : Int) acc r, (∀ c ∈ acc, c ≠ [] ∧ pyStrip c = c) →
      chunkLoop t cs o fuel s acc = some r → ∀ c ∈ r, c ≠ [] ∧ pyStrip c = c := by
  intro fuel
  induction fuel with
  | zero => intro s acc r _ h; simp [chunkLoop] at h
  | succ fuel ih =>
    intro s acc r hacc h
    by_cases hst : s < (t.length : Int)
    · rw [chunkLoop, if_pos hst] at h
      refine ih _ _ r (fun c hc => ?_) h
      by_cases hemp : (pyStrip (pySlice t s (if s + (cs : Int) < (t.length : Int)
          then chunkEnd t s (s + (cs : Int)) else s + (cs : Int)))).isEmpty
      · rw [if_pos hemp] at hc
        exact hacc c hc
      · rw [if_neg hemp] at hc
        rcases List.mem_append.mp hc with hc | hc
        · exact hacc c hc
        · have hce : c = pyStrip (pySlice t s (if s + (cs : Int) < (t.length : Int)
              then chunkEnd t s (s + (cs : Int)) else s + (cs : Int))) := by
            simpa using hc
          subst hce
          refine ⟨?_, pyStrip_idem _⟩
          intro hnil
          rw [hnil] at hemp
          exact hemp rfl
    · rw [chunkLoop, if_neg hst] at h
      injection h with h
      subst h
      exact hacc

/-- C7 (amended): the chunker laws the two variants really satisfy.  Both
return `[]` on empty input and `[text]` — verbatim, NOT trimmed — when
`0 < len(text) ≤ chunk_size`.  The fixed-stride variant inlined in
`generate_embeddings` ("no rfind, no strip") appends every raw slice: it
terminates on every input (for positive `chunk_size`) and its chunks
concatenate to exactly the input — every character, whitespace included, kept
in order, nothing trimmed or dropped — each chunk non-empty and at most
`chunk_size` long.  The boundary-search `chunk_text` never returns a chunk
longer than `chunk_size`, and on its loop branch (`len(text) > chunk_size`)
it strips every chunk and drops the ones that strip to empty, so there every
returned chunk is non-empty and trimmed; but it need not terminate at all
(claim C5). -/
theorem C7_amended (t : List Char) (cs o : Nat) (hcs : 0 < cs) :
    (∀ fuel, chunkText fuel [] cs o = some []) ∧
    simpleChunks 1 [] cs = some [] ∧
    (t ≠ [] → t.length ≤ cs → ∀ fuel, chunkText fuel t cs o = some [t]) ∧
    (t ≠ [] → t.length ≤ cs → ∀ fuel, simpleChunks (fuel + 2) t cs = some [t]) ∧
    (∃ r, simpleChunks (t.length + 1) t cs = some r ∧ r.flatten = t ∧
        ∀ c ∈ r, c ≠ [] ∧ c.length ≤ cs) ∧
    (∀ fuel r, chunkText fuel t cs o = some r → ∀ c ∈ r, c.length ≤ cs) ∧
    (cs < t.length → ∀ fuel r, chunkText fuel t cs o = some r →
      ∀ c ∈ r, c ≠ [] ∧ pyStrip c = c) := by
  refine ⟨fun fuel => rfl, rfl, ?_, ?_, ?_, ?_, ?_⟩
  · intro hne hlen fuel
    unfold chunkText
    rw [if_neg (by simpa using hne), if_pos hlen]
  · intro hne hlen fuel
    have hpos : 0 < t.length := List.length_pos.mpr hne
    have hmin : min (0 + cs) t.length = t.length := by omega
    unfold simpleChunks
    simp only [simpleLoop, if_pos hpos, hmin, List.take_length, List.drop_zero,
      List.nil_append]
    rw [if_neg (lt_irrefl _)]
  · obtain ⟨r, hr, hj, hp⟩ := simpleLoop_complete t cs hcs (t.length + 1) 0 [] (by omega)
    refine ⟨r, by simpa using hr, by simpa using hj, hp⟩
  · intro fuel r h c hc
    unfold chunkText at h
    by_cases hemp : t.isEmpty
    · rw [if_pos hemp] at h
      injection h with h
      subst h
      simp at hc
    · rw [if_neg hemp] at h
      by_cases hlen : t.length ≤ cs
      · rw [if_pos hlen] at h
        injection h with h
        subst h
        simp at hc
        subst hc
        exact hlen
      · rw [if_neg hlen] at h
        exact chunkLoop_sizes t cs o hcs fuel 0 [] r (by simp) h c hc
  · intro hlen fuel r h
    unfold chunkText at h
    rw [if_neg (by
          cases t with
          | nil => simp at hlen
          | cons a s => simp),
        if_neg (not_le.mpr hlen)] at h
    exact chunkLoop_stripped t cs o fuel 0 [] r (by simp) h

/-- Witness for C6: applying the amended characterization at the concrete
window `[0, 7)` of `"a. b! cdefgh"` with the first marker `". "`. -/
theorem C6_amended_witness :
    (0 ≤ 7) ∧ (7 ≤ "a. b! cdefgh".toList.length) ∧
      ∃ r : Nat, isLastOccB "a. b! cdefgh".toList ['.', ' '] 0 7 r = true ∧
        chunkEnd "a. b! cdefgh".toList (0 : Int) (7 : Int) =
          (r : Int) + ((['.', ' '] : List Char).length : Int) :=
  ⟨by decide, by decide,
    (C6_amended "a. b! cdefgh".toList 0 7 (by decide) (by decide)).1
      [] ['.', ' '] [['!', ' '], ['?', ' '], ['\n', '\n']] rfl (by simp) (by decide)⟩

/-- Witness for C7: the amended chunker laws at `"ab"` with `chunk_size = 1`. -/
theorem C7_amended_witness :
    (0 < 1) ∧
      ∃ r, simpleChunks ("ab".toList.length + 1) "ab".toList 1 = some r ∧
        r.flatten = "ab".toList ∧ ∀ c ∈ r, c ≠ [] ∧ c.length ≤ 1 :=
  ⟨by decide, (C7_amended "ab".toList 1 0 (by decide)).2.2.2.2.1⟩

/-- C7 counterexample: on the one-character text `" "` both variants return
`[" "]` — a chunk that is pure whitespace (its strip is empty) — violating
"every returned chunk is non-empty and trimmed of surrounding whitespace
(empty chunks dropped)".  `chunk_text` returns `[text]` verbatim on its
`len(text) ≤ chunk_size` early branch without stripping, and the fixed-stride
inlined loop never strips or drops any slice. -/
theorem C7_counterexample :
    simpleChunks 2 [' '] 500 = some [[' ']] ∧
      chunkText 1 [' '] 500 50 = some [[' ']] ∧
      pyStrip [' '] = [] := by
  refine ⟨by decide, by decide, by decide⟩

/-! ## Access predicate and listing query (claim C1)

From apps/backend/app/core/permissions.py: `PermissionService.can_access_document`
and `PermissionService.get_accessible_documents_query`.  The shares table is a
list; the ORM's `.first()` becomes `List.find?` and `datetime.utcnow()` is the
parameter `now`.
-/

structure AccessUser where
  id : Nat
  is_superuser : Bool
deriving DecidableEq

structure AccessDocument where
  id : Nat
  owner_id : Nat
  is_public : Bool
deriving DecidableEq

structure DocumentShare where
  document_id : Nat
  shared_with_user_id : Nat
  permission_level : String
  expires_at : Option Int
deriving DecidableEq

/-- `PermissionService._check_permission_level`'s hierarchy dict with
`.get(level, 0)`. -/
def permissionRank : String → Nat
  | "read" => 1
  | "write" => 2
  | "admin" => 3
  | _ => 0

/-- `PermissionService._check_permission_level`. -/
def checkPermissionLevel (granted required : String) : Bool :=
  permissionRank required ≤ permissionRank granted

/-- `PermissionService.can_access_document`. -/
def canAccessDocument (shares : List DocumentShare) (now : Int)
    (u : AccessUser) (d : AccessDocument) (requiredLevel : String) : Bool :=
  if u.is_superuser then true
  else if d.owner_id == u.id then true
  else if d.is_public && requiredLevel == "read" then true
  else
    match shares.find? (fun s => s.document_id == d.id && s.shared_with_user_id == u.id) with
    | some share =>
      match share.expires_at with
      | some texp => if texp < now then false
                     else checkPermissionLevel share.permission_level requiredLevel
      | none => checkPermissionLevel share.permission_level requiredLevel
    | none => false

/-- `PermissionService.get_accessible_documents_query`: owner OR public OR any
share row joining the user — with no condition on `expires_at` or
`permission_level`. -/
def accessibleDocumentsQuery (docs : List AccessDocument) (shares : List DocumentShare)
    (u : AccessUser) : List AccessDocument :=
  if u.is_superuser then docs
  else
    docs.filter fun d =>
      d.owner_id == u.id || d.is_public ||
        shares.any (fun s => s.document_id == d.id && s.shared_with_user_id == u.id)

/-- C1 failing input: user 2 (not a superuser); document 1 owned by user 1,
not public; a single share of document 1 to user 2 at level read that expired
at time 0; the current time is 10. -/
def c1User : AccessUser := ⟨2, false⟩

def c1Doc : AccessDocument := ⟨1, 1, false⟩

def c1Share : DocumentShare := ⟨1, 2, "read", some 0⟩

/-- C1: the listing query and the access predicate disagree.  The document
whose only connection to user 2 is a share that expired at time 0 (now = 10)
IS returned by `get_accessible_documents_query` but `can_access_document`
denies read access, contradicting the spec's cross-consistency and "expired
shares grant no access". -/
theorem C1_expired_share_listed_but_not_readable :
    accessibleDocumentsQuery [c1Doc] [c1Share] c1User = [c1Doc] ∧
      canAccessDocument [c1Share] 10 c1User c1Doc "read" = false := by
  exact ⟨rfl, rfl⟩

/-! ## Blob store: `save_file` and image→PDF conversion (claim C2)

From apps/backend/app/services/storage_service.py.  Filenames are strings;
`pathlib`'s `suffix` / `with_suffix` are implemented through `str.rfind('.')`
exactly as pathlib computes them.  The conversion (`img2pdf` + PIL) is
external: `convertOk = false` models `_convert_image_to_pdf` raising, in which
case the source keeps the original image and returns its path.  The image-mode
flattening and any partially written PDF on failure are below this model's
granularity; the document directory's visible contents after return are the
`docDirFiles` field. -/

/-- `os.path.basename` (POSIX): the part after the last slash. -/
def osBasename (p : String) : String :=
  ⟨(p.toList.reverse.takeWhile (· ≠ '/')).reverse⟩

/-- Index of the last dot, via `str.rfind('.')` as pathlib uses it. -/
def lastDotIdx (name : List Char) : Option Nat :=
  pyRfindIn name ['.'] 0 name.length

/-- `pathlib.PurePath.suffix` of a bare file name: the last-dot suffix when
the dot is neither first nor last character. -/
def pathSuffix (name : String) : String :=
  match lastDotIdx name.toList with
  | some i => if 0 < i ∧ i + 1 < name.toList.length then ⟨name.toList.drop i⟩ else ""
  | none => ""

/-- `pathlib.PurePath.with_suffix`: replace (or append, when there is none)
the suffix. -/
def withSuffix (name suffix : String) : String :=
  match lastDotIdx name.toList with
  | some i =>
      if 0 < i ∧ i + 1 < name.toList.length then ⟨name.toList.take i ++ suffix.toList⟩
      else name ++ suffix
  | none => name ++ suffix

/-- `str.lower()` (ASCII). -/
def lowerStr (s : String) : String := ⟨s.toList.map Char.toLower⟩

/-- `StorageService._is_image_file`'s extension set. -/
def imageExtensions : List String := [".jpg", ".jpeg", ".png", ".tif", ".tiff", ".bmp", ".gif"]

/-- `StorageService._is_image_file`. -/
def isImageFile (filename : String) : Bool :=
  imageExtensions.contains (lowerStr (pathSuffix filename))

structure SaveResult where
  final_filename : String
  mime_type : String
  docDirFiles : List String
deriving DecidableEq

/-- `StorageService.save_file`: write the sanitized upload, then convert
images to PDF.  On conversion success the original is unlinked and the path,
name and mime all describe the PDF; on conversion failure the original image
is kept (and the mime is still reported as `application/pdf`); non-images are
stored as-is with the client's content type or a default. -/
def saveFile (filename contentType : String)
    (convertImagesToPdf convertOk : Bool) : SaveResult :=
  let safe := osBasename filename
  if convertImagesToPdf && isImageFile safe then
    if convertOk then
      let pdf := withSuffix safe ".pdf"
      { final_filename := pdf, mime_type := "application/pdf", docDirFiles := [pdf] }
    else
      { final_filename := safe, mime_type := "application/pdf", docDirFiles := [safe] }
  else
    { final_filename := safe,
      mime_type := if contentType = "" then "application/octet-stream" else contentType,
      docDirFiles := [safe] }

theorem lastDotIdx_append_pdf (l : List Char) :
    lastDotIdx (l ++ ['.', 'p', 'd', 'f']) = some l.length := by
  have hocc : occursAt (l ++ ['.', 'p', 'd', 'f']) ['.'] l.length = true := by
    unfold occursAt
    rw [List.drop_left]
    decide
  have hnotocc : ∀ k, k = 1 ∨ k = 2 ∨ k = 3 →
      occursAt (l ++ ['.', 'p', 'd', 'f']) ['.'] (l.length + k) = false := by
    intro k hk
    unfold occursAt
    rw [List.drop_append]
    rcases hk with h | h | h <;> subst h <;> decide
  unfold lastDotIdx pyRfindIn
  have hlen : (l ++ ['.', 'p', 'd', 'f']).length = l.length + 4 := by simp
  rw [if_pos (by simp : (['.'] : List Char).length ≤ (l ++ ['.', 'p', 'd', 'f']).length)]
  rcases hfind : rfindAux (l ++ ['.', 'p', 'd', 'f']) ['.'] 0
      ((l ++ ['.', 'p', 'd', 'f']).length + 1 - (['.'] : List Char).length - 0) with _ | p
  · exfalso
    have := rfindAux_eq_none hfind l.length (by omega)
      (by simp only [List.length_append, List.length_cons, List.length_nil]; omega)
    rw [this] at hocc
    cases hocc
  · obtain ⟨h1, _, h3, h4⟩ := rfindAux_eq_some hfind
    have hple : l.length ≤ p := by
      by_contra hlt
      push_neg at hlt
      have := h4 l.length hlt
        (by simp only [List.length_append, List.length_cons, List.length_nil]; omega)
      rw [this] at hocc
      cases hocc
    have hpge : p ≤ l.length := by
      by_contra hgt
      push_neg at hgt
      have hp4 : p < l.length + 4 := by
        simp at h3
        omega
      have hk13 : p - l.length = 1 ∨ p - l.length = 2 ∨ p - l.length = 3 := by omega
      have hrw : l.length + (p - l.length) = p := by omega
      have := hnotocc (p - l.length) hk13
      rw [hrw, h1] at this
      cases this
    have : p = l.length := by omega
    subst this
    rfl

theorem isImageFile_suffix_nonempty {name : String} (h : isImageFile name = true) :
    ∃ i, lastDotIdx name.toList = some i ∧ 0 < i ∧ i + 1 < name.toList.length := by
  unfold isImageFile pathSuffix at h
  rcases hidx : lastDotIdx name.toList with _ | i
  · rw [hidx] at h
    have h' : imageExtensions.contains (lowerStr "") = true := h
    exact absurd h' (by decide)
  · rw [hidx] at h
    by_cases hcond : 0 < i ∧ i + 1 < name.toList.length
    · exact ⟨i, rfl, hcond.1, hcond.2⟩
    · have h' : imageExtensions.contains
          (lowerStr (if 0 < i ∧ i + 1 < name.toList.length
            then (⟨name.toList.drop i⟩ : String) else "")) = true := h
      rw [if_neg hcond] at h'
      exact absurd h' (by decide)

theorem pathSuffix_withSuffix_pdf {name : String} (h : isImageFile name = true) :
    pathSuffix (withSuffix name ".pdf") = ".pdf" := by
  obtain ⟨i, hidx, hi0, hi1⟩ := isImageFile_suffix_nonempty h
  have hw : withSuffix name ".pdf" = ⟨name.toList.take i ++ ['.', 'p', 'd', 'f']⟩ := by
    unfold withSuffix
    rw [hidx]
    show (if 0 < i ∧ i + 1 < name.toList.length
        then (⟨name.toList.take i ++ ".pdf".toList⟩ : String) else name ++ ".pdf") = _
    rw [if_pos ⟨hi0, hi1⟩]
    rfl
  rw [hw]
  unfold pathSuffix
  have htl : (String.mk (name.toList.take i ++ ['.', 'p', 'd', 'f'])).toList =
      name.toList.take i ++ ['.', 'p', 'd', 'f'] := rfl
  rw [htl, lastDotIdx_append_pdf]
  have htake : (name.toList.take i).length = i := by
    rw [List.length_take]
    omega
  show (if 0 < (name.toList.take i).length ∧ (name.toList.take i).length + 1 <
      (name.toList.take i ++ ['.', 'p', 'd', 'f']).length
    then (⟨(name.toList.take i ++ ['.', 'p', 'd', 'f']).drop (name.toList.take i).length⟩ :
      String) else "") = ".pdf"
  have hc1 : 0 < (name.toList.take i).length := by
    rw [htake]
    omega
  have hc2 : (name.toList.take i).length + 1 <
      (name.toList.take i ++ ['.', 'p', 'd', 'f']).length := by
    rw [List.length_append, htake]
    simp
  rw [if_pos ⟨hc1, hc2⟩, List.drop_left]

theorem withSuffix_pdf_ne {name : String} (h : isImageFile name = true) :
    withSuffix name ".pdf" ≠ name := by
  intro heq
  have h1 : pathSuffix name = ".pdf" := by
    rw [← heq]
    exact pathSuffix_withSuffix_pdf h
  unfold isImageFile at h
  rw [h1] at h
  exact absurd h (by decide)

/-- C2 (amended): for an upload whose sanitized filename is an image type,
WHEN the image→PDF conversion succeeds `save_file` returns mime
`application/pdf` and a filename with extension `.pdf`, and only the converted
PDF remains in the document directory (the original image is deleted); when
the conversion raises, the original image is kept under its original
(non-`.pdf`) name — yet the returned mime is still `application/pdf`. -/
theorem C2_amended (filename contentType : String)
    (himg : isImageFile (osBasename filename) = true) :
    ((saveFile filename contentType true true).mime_type = "application/pdf" ∧
      pathSuffix (saveFile filename contentType true true).final_filename = ".pdf" ∧
      (saveFile filename contentType true true).docDirFiles =
        [withSuffix (osBasename filename) ".pdf"] ∧
      osBasename filename ∉ (saveFile filename contentType true true).docDirFiles) ∧
    ((saveFile filename contentType true false).mime_type = "application/pdf" ∧
      (saveFile filename contentType true false).final_filename = osBasename filename ∧
      (saveFile filename contentType true false).docDirFiles = [osBasename filename]) := by
  constructor
  · refine ⟨?_, ?_, ?_, ?_⟩
    · simp [saveFile, himg]
    · have hf : (saveFile filename contentType true true).final_filename =
          withSuffix (osBasename filename) ".pdf" := by
        simp [saveFile, himg]
      rw [hf]
      exact pathSuffix_withSuffix_pdf himg
    · simp [saveFile, himg]
    · simp only [saveFile, himg, Bool.and_true, if_true, List.mem_singleton]
      exact fun hh => withSuffix_pdf_ne himg hh.symm
  · refine ⟨?_, ?_, ?_⟩ <;> simp [saveFile, himg]

/-- Witness for C2: the amended save behaviour at the concrete upload
`"scan.png"`. -/
theorem C2_amended_witness :
    isImageFile (osBasename "scan.png") = true ∧
      (((saveFile "scan.png" "image/png" true true).mime_type = "application/pdf" ∧
        pathSuffix (saveFile "scan.png" "image/png" true true).final_filename = ".pdf" ∧
        (saveFile "scan.png" "image/png" true true).docDirFiles =
          [withSuffix (osBasename "scan.png") ".pdf"] ∧
        osBasename "scan.png" ∉ (saveFile "scan.png" "image/png" true true).docDirFiles) ∧
      ((saveFile "scan.png" "image/png" true false).mime_type = "application/pdf" ∧
        (saveFile "scan.png" "image/png" true false).final_filename = osBasename "scan.png" ∧
        (saveFile "scan.png" "image/png" true false).docDirFiles = [osBasename "scan.png"])) :=
  ⟨by decide, C2_amended "scan.png" "image/png" (by decide)⟩

/-- C2 counterexample: when `_convert_image_to_pdf` raises (any `img2pdf`/PIL
failure), `save_file` on `"scan.png"` returns final filename `"scan.png"` —
not a `.pdf` — while still reporting mime `application/pdf`, and the original
image remains in the blob store. -/
theorem C2_counterexample :
    (saveFile "scan.png" "image/png" true false).mime_type = "application/pdf" ∧
      (saveFile "scan.png" "image/png" true false).final_filename = "scan.png" ∧
      pathSuffix "scan.png" ≠ ".pdf" ∧
      "scan.png" ∈ (saveFile "scan.png" "image/png" true false).docDirFiles := by
  refine ⟨rfl, rfl, by decide, by decide⟩

/-! ## Ingest: `create_document` dedup and the upload endpoint (claim C3)

From apps/backend/app/services/document_service.py `create_document` and
backend/app/api/v1/documents.py `upload_document`.  The SHA-256 of the upload
is the parameter function `χ` (external `hashlib`); the database tables and
the blob store are explicit lists.  NOTE the faithful wart: `create_document`
binds the 3-tuple returned by `save_file` to `file_path` and passes it to
`get_file_size`, whose `base_path / relative_path` raises `TypeError` — this
happens after the blob is written but before `db.add`, so the success path of
`create_document` never commits a Document row. -/

structure DocRecord where
  id : Nat
  owner_id : Nat
  checksum : String
deriving DecidableEq

structure IngestState where
  docs : List DocRecord
  blobs : List (Nat × String)
  chunks : List (Nat × Nat)
deriving DecidableEq

inductive CreateOutcome
  | created (d : DocRecord)
  | duplicateError (existingId : Nat)
  | typeError
deriving DecidableEq

/-- `DocumentService.create_document` (apps tree). -/
def createDocument (χ : List Nat → String) (bytes : List Nat) (ownerId newId : Nat)
    (filename contentType : String) (convertOk : Bool) (s : IngestState) :
    IngestState × CreateOutcome :=
  let c := χ bytes
  match s.docs.find? (fun d => d.checksum == c && d.owner_id == ownerId) with
  | some existing => (s, .duplicateError existing.id)
  | none =>
    let res := saveFile filename contentType true convertOk
    let s1 := { s with blobs := s.blobs ++ res.docDirFiles.map (fun f => (newId, f)) }
    (s1, .typeError)

/-- `upload_document`'s exception mapping: `DuplicateError → 409` (with the
existing document id in the detail), any other exception `→ 500`. -/
def uploadStatusCode : CreateOutcome → Nat
  | .created _ => 201
  | .duplicateError _ => 409
  | .typeError => 500

/-- C3: evaluation of `create_document` on the claim's scenario.  A first
upload into an empty store writes the blob and dies with `TypeError` (no
Document row), so the second byte-identical upload finds no duplicate and does
the same — instead of raising `DuplicateError`/409.  The dedup branch itself
is intact: when a row with the same (checksum, owner) already exists, the call
raises `DuplicateError` carrying that row's id, mapped to 409, and the state
is returned unchanged (no new Document, blob, or chunk rows). -/
theorem C3_create_document_evaluation :
    createDocument (fun _ => "aa") [1, 2, 3] 1 10 "doc.pdf" "application/pdf" true
        ⟨[], [], []⟩ = (⟨[], [(10, "doc.pdf")], []⟩, .typeError) ∧
      createDocument (fun _ => "aa") [1, 2, 3] 1 11 "doc.pdf" "application/pdf" true
        ⟨[], [(10, "doc.pdf")], []⟩ =
          (⟨[], [(10, "doc.pdf"), (11, "doc.pdf")], []⟩, .typeError) ∧
      uploadStatusCode .typeError = 500 ∧
      createDocument (fun _ => "aa") [1, 2, 3] 1 12 "doc.pdf" "application/pdf" true
        ⟨[⟨7, 1, "aa"⟩], [], []⟩ = (⟨[⟨7, 1, "aa"⟩], [], []⟩, .duplicateError 7) ∧
      uploadStatusCode (.duplicateError 7) = 409 := by
  exact ⟨rfl, rfl, rfl, rfl, rfl⟩

/-! ## The pipeline tasks (claims C4 and C9)

From backend/app/tasks/document_tasks.py.  The document row is explicit; OCR,
the embedding provider and the LLM are injected outcomes (`Except.error msg`
models the external call raising).  `process_document`'s final enqueue of the
next stage and `extract_metadata`'s per-tag upserts (isolated, rolled back
per-tag) have no effect on the document row and are not modelled. -/

structure DocRow where
  title : String
  original_filename : String
  ocr_text : Option String
  ocr_language : Option String
  page_count : Option Nat
  processing_status : String
  processing_error : Option String
  extracted_title : Option String
  extracted_correspondent : Option String
  extracted_date : Option String
  extracted_document_type : Option String
  extracted_summary : Option String
deriving DecidableEq

structure ChunkRow where
  document_id : Nat
  chunk_index : Nat
  chunk_text : String
  embedding : List ℚ
  embedding_model : String
deriving DecidableEq

/-- `process_document`: set `processing`, extract text, set
`ocr_complete`/`ocr_failed`, update `page_count` for PDFs; its blanket
`except` sets status `failed` with the error message and returns an error
status dict. -/
def processDocumentTask (doc? : Option DocRow) (extraction : Except String (Option String))
    (lang : String) (isPdf : Bool) (pages : Option Nat) : Option DocRow × String :=
  match doc? with
  | none => (none, "error")
  | some d =>
    match extraction with
    | .error msg =>
        (some { d with processing_status := "failed", processing_error := some msg }, "error")
    | .ok textOpt =>
      let d1 := { d with processing_status := "processing" }
      let d2 :=
        match textOpt with
        | some t =>
            if 0 < (pyStrip t.toList).length then
              { d1 with ocr_text := some t, ocr_language := some lang,
                        processing_status := "ocr_complete" }
            else
              { d1 with ocr_text := some "", processing_status := "ocr_failed",
                        processing_error := some "No text could be extracted from document" }
        | none =>
            { d1 with ocr_text := some "", processing_status := "ocr_failed",
                      processing_error := some "No text could be extracted from document" }
      let d3 :=
        if isPdf then
          match pages with
          | some n => { d2 with page_count := some n }
          | none => d2
        else d2
      (some d3, "success")

/-- `generate_embeddings`: re-read `ocr_text`, delete the chunk rows, chunk
with the inlined fixed-stride loop, embed, insert rows, set
`embedding_complete`; its blanket `except` sets status `failed` with a
prefixed error.  `none` means the inlined chunking loop itself never
terminates. -/
def generateEmbeddingsTask (docId : Nat) (doc? : Option DocRow) (chunks0 : List ChunkRow)
    (cs : Nat) (label : String) (embed : List String → Except String (List (List ℚ))) :
    Option ((Option DocRow) × List ChunkRow × String) :=
  match doc? with
  | none => some (none, chunks0, "error")
  | some d =>
    match d.ocr_text with
    | none => some (some d, chunks0, "skipped")
    | some t =>
      if t = "" then some (some d, chunks0, "skipped")
      else
        match simpleChunks (t.toList.length + 1) t.toList cs with
        | none => none
        | some cks =>
          if cks.isEmpty then some (some d, [], "skipped")
          else
            match embed (cks.map fun c => (⟨c⟩ : String)) with
            | .error msg =>
                let dErr := { d with
                  processing_status := "failed",
                  processing_error := some ("Embedding generation failed: " ++ msg) }
                some (some dErr, [], "error")
            | .ok vecs =>
              let rows := ((cks.map fun c => (⟨c⟩ : String)).zip vecs).enum.map
                  fun p => ChunkRow.mk docId p.1 p.2.1 p.2.2 label
              some (some { d with processing_status := "embedding_complete" },
                rows, "success")

structure LlmMetadata where
  title : String
  correspondent : String
  document_date : Option String
  document_type : String
  summary : String
  suggested_tags : List String
deriving DecidableEq

/-- The conditional field updates of `extract_metadata` (its `updates` list):
`extracted_title` only when the current title equals the original filename and
the LLM title is not "Unknown"; correspondent and document type when present
and not "Unknown"; date and summary whenever present — with NO "Unknown"
guard; `processing_status` is always appended. -/
def applyMetadataUpdates (d : DocRow) (m : LlmMetadata) : DocRow :=
  let d1 := if d.title = d.original_filename ∧ m.title ≠ "Unknown"
    then { d with extracted_title := some m.title } else d
  let d2 := if m.correspondent ≠ "" ∧ m.correspondent ≠ "Unknown"
    then { d1 with extracted_correspondent := some m.correspondent } else d1
  let d3 :=
    match m.document_date with
    | some dd => if dd ≠ "" then { d2 with extracted_date := some dd } else d2
    | none => d2
  let d4 := if m.document_type ≠ "" ∧ m.document_type ≠ "Unknown"
    then { d3 with extracted_document_type := some m.document_type } else d3
  let d5 := if m.summary ≠ "" then { d4 with extracted_summary := some m.summary } else d4
  { d5 with processing_status := "llm_complete" }

/-- `extract_metadata`: guard on `LLM_ENABLED`, missing row and empty
`ocr_text`; call the LLM; apply the conditional updates; its blanket `except`
sets ONLY `processing_error` (prefixed) — not `processing_status` — and
returns an error status dict. -/
def extractMetadataTask (llmEnabled : Bool) (doc? : Option DocRow)
    (llm : Except String LlmMetadata) : Option DocRow × String :=
  if !llmEnabled then (doc?, "skipped")
  else
    match doc? with
    | none => (none, "error")
    | some d =>
      if (match d.ocr_text with | some t => t | none => "") = "" then (some d, "skipped")
      else
        match llm with
        | .error msg =>
            let dErr := { d with
              processing_error := some ("Metadata extraction failed: " ++ msg) }
            (some dErr, "error")
        | .ok m => (some (applyMetadataUpdates d m), "success")

/-- The sequential update chain decomposed into independent per-field
updates. -/
theorem applyMetadataUpdates_spec (d : DocRow) (m : LlmMetadata) :
    applyMetadataUpdates d m = { d with
      extracted_title :=
        if d.title = d.original_filename ∧ m.title ≠ "Unknown" then some m.title
        else d.extracted_title,
      extracted_correspondent :=
        if m.correspondent ≠ "" ∧ m.correspondent ≠ "Unknown" then some m.correspondent
        else d.extracted_correspondent,
      extracted_date :=
        match m.document_date with
        | some dd => if dd ≠ "" then some dd else d.extracted_date
        | none => d.extracted_date,
      extracted_document_type :=
        if m.document_type ≠ "" ∧ m.document_type ≠ "Unknown" then some m.document_type
        else d.extracted_document_type,
      extracted_summary :=
        if m.summary ≠ "" then some m.summary else d.extracted_summary,
      processing_status := "llm_complete" } := by
  unfold applyMetadataUpdates
  rcases hdd : m.document_date with _ | dd
  · split_ifs <;> simp
  · rcases eq_or_ne dd "" with h0 | h0 <;> split_ifs <;> simp [h0]

/-- A concrete post-OCR document row used by the C4/C9 instances. -/
def c4Doc : DocRow :=
  { title := "report.pdf", original_filename := "report.pdf",
    ocr_text := some "hello world", ocr_language := some "en", page_count := some 1,
    processing_status := "ocr_complete", processing_error := none,
    extracted_title := none, extracted_correspondent := none, extracted_date := none,
    extracted_document_type := none, extracted_summary := none }

/-- C4 counterexample: when the LLM stage raises, `extract_metadata` returns
an error status dict and sets `processing_error`, but it does NOT set
`processing_status = 'failed'` — the status stays at `ocr_complete`. -/
theorem C4_counterexample :
    (extractMetadataTask true (some c4Doc) (.error "boom")).2 = "error" ∧
      (extractMetadataTask true (some c4Doc) (.error "boom")).1.map
          (fun d => d.processing_status) = some "ocr_complete" ∧
      (extractMetadataTask true (some c4Doc) (.error "boom")).1.map
          (fun d => d.processing_error) = some (some "Metadata extraction failed: boom") ∧
      ("ocr_complete" : String) ≠ "failed" := by
  exact ⟨rfl, rfl, rfl, by decide⟩

/-- C4 (amended): an exception inside `process_document` or
`generate_embeddings` is converted to a `failed` transition with
`processing_error` set and an error status dict returned; an exception inside
`extract_metadata` also yields the error dict and sets `processing_error`
(prefixed), but leaves `processing_status` unchanged. -/
theorem C4_amended (d : DocRow) (lang msg t : String) (isPdf : Bool)
    (pages : Option Nat) (docId cs : Nat) (label : String) (chunks0 : List ChunkRow)
    (hcs : 0 < cs) (hocr : d.ocr_text = some t) (ht : t ≠ "") :
    processDocumentTask (some d) (.error msg) lang isPdf pages =
      (some { d with processing_status := "failed", processing_error := some msg },
        "error") ∧
    generateEmbeddingsTask docId (some d) chunks0 cs label (fun _ => .error msg) =
      some (some { d with
          processing_status := "failed",
          processing_error := some ("Embedding generation failed: " ++ msg) },
        [], "error") ∧
    extractMetadataTask true (some d) (.error msg) =
      (some { d with
          processing_error := some ("Metadata extraction failed: " ++ msg) },
        "error") ∧
    ({ d with processing_error := some ("Metadata extraction failed: " ++ msg)} :
        DocRow).processing_status = d.processing_status := by
  have htl : t.toList ≠ [] := by
    intro h
    exact ht (String.toList_inj.mp (by simpa using h))
  refine ⟨rfl, ?_, ?_, rfl⟩
  · obtain ⟨r, hr, hj, _⟩ :=
      simpleLoop_complete t.toList cs hcs (t.toList.length + 1) 0 [] (by omega)
    have hsc : simpleChunks (t.toList.length + 1) t.toList cs = some r := by
      unfold simpleChunks
      simpa using hr
    have hrne : r.isEmpty = false := by
      cases r with
      | nil => exact absurd (by simpa using hj.symm) htl
      | cons a r' => rfl
    have hrne2 : ¬ (r = []) := by
      cases r with
      | nil => exact absurd (by simpa using hj.symm) htl
      | cons a r' => simp
    have hsc2 : simpleChunks (t.length + 1) t.data cs = some r := hsc
    simp [generateEmbeddingsTask, hocr, ht]
    rw [hsc2]
    simp [hrne2]
  · simp [extractMetadataTask, hocr, ht]

/-- Witness for C4: the three failure conversions at the concrete row
`c4Doc`. -/
theorem C4_amended_witness :
    (0 < 500 ∧ c4Doc.ocr_text = some "hello world" ∧ ("hello world" : String) ≠ "") ∧
      (processDocumentTask (some c4Doc) (.error "boom") "en" true (some 1) =
        (some { c4Doc with
            processing_status := "failed",
            processing_error := some "boom" }, "error") ∧
      generateEmbeddingsTask 1 (some c4Doc) [] 500 "m" (fun _ => .error "boom") =
        some (some { c4Doc with
            processing_status := "failed",
            processing_error := some ("Embedding generation failed: " ++ "boom") },
          [], "error") ∧
      extractMetadataTask true (some c4Doc) (.error "boom") =
        (some { c4Doc with
            processing_error := some ("Metadata extraction failed: " ++ "boom") },
          "error") ∧
      ({ c4Doc with
          processing_error := some ("Metadata extraction failed: " ++ "boom")} :
          DocRow).processing_status = c4Doc.processing_status) :=
  ⟨⟨by decide, rfl, by decide⟩,
    C4_amended c4Doc "en" "boom" "hello world" true (some 1) 1 500 "m" []
      (by decide) rfl (by decide)⟩

/-- A document row with a user-edited title (differs from the original
filename). -/
def c9Doc : DocRow :=
  { title := "My Tax Return", original_filename := "scan_001.pdf",
    ocr_text := some "hello world", ocr_language := some "en", page_count := some 1,
    processing_status := "embedding_complete", processing_error := none,
    extracted_title := none, extracted_correspondent := none, extracted_date := none,
    extracted_document_type := none, extracted_summary := none }

/-- An LLM result whose summary (and date) are the literal string
`"Unknown"` — which the prompt explicitly allows. -/
def c9Meta : LlmMetadata :=
  { title := "Invoice", correspondent := "ACME", document_date := some "Unknown",
    document_type := "invoice", summary := "Unknown", suggested_tags := [] }

/-- C9 counterexample: `extract_metadata` has no "Unknown" guard on
`extracted_summary` or `extracted_date`: an LLM answer of `"Unknown"` for
either is written to the document verbatim. -/
theorem C9_counterexample :
    (extractMetadataTask true (some c9Doc) (.ok c9Meta)).1.map
        (fun d => d.extracted_summary) = some (some "Unknown") ∧
      (extractMetadataTask true (some c9Doc) (.ok c9Meta)).1.map
        (fun d => d.extracted_date) = some (some "Unknown") ∧
      c9Meta.summary = "Unknown" ∧ c9Meta.document_date = some "Unknown" := by
  exact ⟨rfl, rfl, rfl, rfl⟩

/-- C9 (amended): `extract_metadata` writes `extracted_title` only when the
current title equals `original_filename` and the LLM title is not the literal
string "Unknown" — that guard does NOT test truthiness, so an empty LLM title
passes it and IS written; the `title` column itself is never written, so user
edits survive any number of runs; `extracted_correspondent` and
`extracted_document_type` are guarded by presence AND not-"Unknown";
`extracted_date` and `extracted_summary` are guarded only by presence — a
literal "Unknown" IS written; `processing_status` becomes `llm_complete` and
every other document field is untouched. -/
theorem C9_amended (d : DocRow) (m : LlmMetadata) (t : String)
    (hocr : d.ocr_text = some t) (ht : t ≠ "") :
    extractMetadataTask true (some d) (.ok m) =
      (some (applyMetadataUpdates d m), "success") ∧
    (applyMetadataUpdates d m).title = d.title ∧
    (d.title ≠ d.original_filename →
      (applyMetadataUpdates d m).extracted_title = d.extracted_title) ∧
    ((applyMetadataUpdates d m).extracted_title ≠ d.extracted_title →
      d.title = d.original_filename ∧ m.title ≠ "Unknown" ∧
        (applyMetadataUpdates d m).extracted_title = some m.title) ∧
    ((applyMetadataUpdates d m).extracted_correspondent ≠ d.extracted_correspondent →
      m.correspondent ≠ "" ∧ m.correspondent ≠ "Unknown" ∧
        (applyMetadataUpdates d m).extracted_correspondent = some m.correspondent) ∧
    ((applyMetadataUpdates d m).extracted_document_type ≠ d.extracted_document_type →
      m.document_type ≠ "" ∧ m.document_type ≠ "Unknown" ∧
        (applyMetadataUpdates d m).extracted_document_type = some m.document_type) ∧
    ((applyMetadataUpdates d m).extracted_date ≠ d.extracted_date →
      ∃ s, m.document_date = some s ∧ s ≠ "" ∧
        (applyMetadataUpdates d m).extracted_date = some s) ∧
    (m.document_date = some "Unknown" →
      (applyMetadataUpdates d m).extracted_date = some "Unknown") ∧
    ((applyMetadataUpdates d m).extracted_summary ≠ d.extracted_summary →
      m.summary ≠ "" ∧ (applyMetadataUpdates d m).extracted_summary = some m.summary) ∧
    (m.summary = "Unknown" → (applyMetadataUpdates d m).extracted_summary = some "Unknown") ∧
    (applyMetadataUpdates d m).processing_status = "llm_complete" ∧
    (applyMetadataUpdates d m).original_filename = d.original_filename ∧
    (applyMetadataUpdates d m).ocr_text = d.ocr_text ∧
    (applyMetadataUpdates d m).ocr_language = d.ocr_language ∧
    (applyMetadataUpdates d m).page_count = d.page_count ∧
    (applyMetadataUpdates d m).processing_error = d.processing_error ∧
    (d.title = d.original_filename → m.title = "" →
      (applyMetadataUpdates d m).extracted_title = some "") := by
  refine ⟨by simp [extractMetadataTask, hocr, ht], ?_, ?_, ?_, ?_, ?_, ?_, ?_, ?_, ?_,
    ?_, ?_, ?_, ?_, ?_, ?_, ?_⟩
  · rw [applyMetadataUpdates_spec]
  · rw [applyMetadataUpdates_spec]
    intro hne
    show (if d.title = d.original_filename ∧ m.title ≠ "Unknown" then some m.title
      else d.extracted_title) = d.extracted_title
    rw [if_neg (fun hc => hne hc.1)]
  · rw [applyMetadataUpdates_spec]
    show (if d.title = d.original_filename ∧ m.title ≠ "Unknown" then some m.title
      else d.extracted_title) ≠ d.extracted_title → _
    by_cases hc : d.title = d.original_filename ∧ m.title ≠ "Unknown"
    · rw [if_pos hc]
      exact fun _ => ⟨hc.1, hc.2, rfl⟩
    · rw [if_neg hc]
      exact fun h => absurd rfl h
  · rw [applyMetadataUpdates_spec]
    show (if m.correspondent ≠ "" ∧ m.correspondent ≠ "Unknown" then some m.correspondent
      else d.extracted_correspondent) ≠ d.extracted_correspondent → _
    by_cases hc : m.correspondent ≠ "" ∧ m.correspondent ≠ "Unknown"
    · rw [if_pos hc]
      exact fun _ => ⟨hc.1, hc.2, rfl⟩
    · rw [if_neg hc]
      exact fun h => absurd rfl h
  · rw [applyMetadataUpdates_spec]
    show (if m.document_type ≠ "" ∧ m.document_type ≠ "Unknown" then some m.document_type
      else d.extracted_document_type) ≠ d.extracted_document_type → _
    by_cases hc : m.document_type ≠ "" ∧ m.document_type ≠ "Unknown"
    · rw [if_pos hc]
      exact fun _ => ⟨hc.1, hc.2, rfl⟩
    · rw [if_neg hc]
      exact fun h => absurd rfl h
  · rw [applyMetadataUpdates_spec]
    show (match m.document_date with
        | some dd => if dd ≠ "" then some dd else d.extracted_date
        | none => d.extracted_date) ≠ d.extracted_date → _
    rcases hdd : m.document_date with _ | dd
    · exact fun h => absurd rfl h
    · by_cases h0 : dd = ""
      · intro h
        apply absurd _ h
        show (if dd ≠ "" then some dd else d.extracted_date) = d.extracted_date
        rw [if_neg (by simpa using h0)]
      · intro _
        refine ⟨dd, rfl, h0, ?_⟩
        show (if dd ≠ "" then some dd else d.extracted_date) = some dd
        rw [if_pos h0]
  · rw [applyMetadataUpdates_spec]
    intro hdd
    rw [hdd]
    show (if ("Unknown" : String) ≠ "" then some "Unknown" else d.extracted_date) = _
    rw [if_pos (by decide)]
  · rw [applyMetadataUpdates_spec]
    show (if m.summary ≠ "" then some m.summary else d.extracted_summary) ≠
        d.extracted_summary → _
    by_cases hc : m.summary ≠ ""
    · rw [if_pos hc]
      exact fun _ => ⟨hc, rfl⟩
    · rw [if_neg hc]
      exact fun h => absurd rfl h
  · rw [applyMetadataUpdates_spec]
    intro hs
    rw [hs]
    show (if ("Unknown" : String) ≠ "" then some "Unknown" else d.extracted_summary) = _
    rw [if_pos (by decide)]
  · rw [applyMetadataUpdates_spec]
  · rw [applyMetadataUpdates_spec]
  · rw [applyMetadataUpdates_spec]
  · rw [applyMetadataUpdates_spec]
  · rw [applyMetadataUpdates_spec]
  · rw [applyMetadataUpdates_spec]
  · rw [applyMetadataUpdates_spec]
    intro heq hemp
    show (if d.title = d.original_filename ∧ m.title ≠ "Unknown" then some m.title
      else d.extracted_title) = some ""
    rw [if_pos ⟨heq, by rw [hemp]; decide⟩, hemp]

/-- Witness for C9: the amended statement at the user-edited row `c9Doc` and
the LLM answer `c9Meta`. -/
theorem C9_amended_witness :
    (c9Doc.ocr_text = some "hello world" ∧ ("hello world" : String) ≠ "") ∧
      ((extractMetadataTask true (some c9Doc) (.ok c9Meta)).1.map (fun d => d.title) =
          some c9Doc.title ∧
        (applyMetadataUpdates c9Doc c9Meta).title = c9Doc.title ∧
        (applyMetadataUpdates c9Doc c9Meta).extracted_title = c9Doc.extracted_title) :=
  ⟨⟨rfl, by decide⟩, by
    have h := C9_amended c9Doc c9Meta "hello world" rfl (by decide)
    refine ⟨?_, h.2.1, h.2.2.1 (by decide)⟩
    rw [h.1]
    show some (applyMetadataUpdates c9Doc c9Meta).title = some c9Doc.title
    rw [h.2.1]⟩

/-! ## Fulltext search (claim C10)

From apps/backend/app/services/search_service.py: `search_documents` and
`count_search_results`.  The documents table is a list; `ILIKE '%q%'` is
case-insensitive substring containment (NULL columns never match); the SQL
`ORDER BY created_at DESC` is a stable descending sort. -/

structure SDoc where
  id : Nat
  owner_id : Nat
  created_at : Nat
  title : String
  original_filename : String
  ocr_text : Option String
  extracted_title : Option String
  extracted_correspondent : Option String
deriving DecidableEq

/-- `col ILIKE '%needle%'` for a non-null column. -/
def containsCI (hay needle : String) : Bool :=
  (List.range (hay.toList.length + 1)).any fun p =>
    (needle.toList.map Char.toLower).isPrefixOf ((hay.toList.map Char.toLower).drop p)

/-- `col ILIKE '%needle%'` for a nullable column (`NULL` never matches). -/
def optIlike (col : Option String) (needle : String) : Bool :=
  match col with
  | some s => containsCI s needle
  | none => false

/-- `ORDER BY created_at DESC`. -/
def sortByCreatedDesc (docs : List SDoc) : List SDoc :=
  List.insertionSort (fun a b => b.created_at ≤ a.created_at) docs

/-- The `ILIKE` disjunction of `search_documents`' non-blank branch. -/
def matchesQuery (d : SDoc) (query : String) : Bool :=
  containsCI d.title query || containsCI d.original_filename query ||
    optIlike d.ocr_text query || optIlike d.extracted_title query ||
    optIlike d.extracted_correspondent query

/-- `SearchService.search_documents`. -/
def searchDocuments (docs : List SDoc) (query : String) (userId skip limit : Nat) :
    List SDoc :=
  if query = "" ∨ pyStrip query.toList = [] then
    ((sortByCreatedDesc (docs.filter fun d => d.owner_id == userId)).drop skip).take limit
  else
    ((sortByCreatedDesc (docs.filter fun d =>
      d.owner_id == userId && matchesQuery d query)).drop skip).take limit

/-- `SearchService.count_search_results`. -/
def countSearchResults (docs : List SDoc) (query : String) (userId : Nat) : Nat :=
  if query = "" ∨ pyStrip query.toList = [] then
    (docs.filter fun d => d.owner_id == userId).length
  else
    (docs.filter fun d => d.owner_id == userId && matchesQuery d query).length

/-- Modelled from claim C10's words: all of the user's own documents, ordered
by `created_at` descending and paginated by skip/limit. -/
def specOwnedDocumentsPage (docs : List SDoc) (userId skip limit : Nat) : List SDoc :=
  ((sortByCreatedDesc (docs.filter fun d => d.owner_id == userId)).drop skip).take limit

theorem pyStrip_eq_nil_of_all_space {l : List Char}
    (h : ∀ c ∈ l, pyIsSpace c = true) : pyStrip l = [] := by
  unfold pyStrip
  have h1 : l.dropWhile pyIsSpace = [] :=
    List.dropWhile_eq_nil_iff.mpr fun x hx => by simp [h x hx]
  rw [h1]
  rfl

/-- C10: an empty or whitespace-only query is not an error: `search_documents`
returns the user's own documents ordered by `created_at` descending with
skip/limit pagination, and `count_search_results` returns the user's total
document count. -/
theorem C10_blank_query (docs : List SDoc) (query : String) (userId skip limit : Nat)
    (hblank : ∀ c ∈ query.toList, pyIsSpace c = true) :
    searchDocuments docs query userId skip limit =
        specOwnedDocumentsPage docs userId skip limit ∧
      countSearchResults docs query userId =
        (docs.filter fun d => d.owner_id == userId).length := by
  have hstrip : pyStrip query.toList = [] := pyStrip_eq_nil_of_all_space hblank
  constructor
  · unfold searchDocuments specOwnedDocumentsPage
    rw [if_pos (Or.inr hstrip)]
  · unfold countSearchResults
    rw [if_pos (Or.inr hstrip)]

/-- Witness for C10: a blank (one space) query over a two-user corpus. -/
theorem C10_blank_query_witness :
    (∀ c ∈ (" " : String).toList, pyIsSpace c = true) ∧
      (searchDocuments
          [⟨1, 1, 5, "a", "a.pdf", none, none, none⟩,
           ⟨2, 2, 6, "b", "b.pdf", none, none, none⟩,
           ⟨3, 1, 7, "c", "c.pdf", none, none, none⟩] " " 1 0 50 =
        specOwnedDocumentsPage
          [⟨1, 1, 5, "a", "a.pdf", none, none, none⟩,
           ⟨2, 2, 6, "b", "b.pdf", none, none, none⟩,
           ⟨3, 1, 7, "c", "c.pdf", none, none, none⟩] 1 0 50 ∧
      countSearchResults
          [⟨1, 1, 5, "a", "a.pdf", none, none, none⟩,
           ⟨2, 2, 6, "b", "b.pdf", none, none, none⟩,
           ⟨3, 1, 7, "c", "c.pdf", none, none, none⟩] " " 1 = 2) := by
  constructor
  · decide
  · constructor
    · exact (C10_blank_query _ " " 1 0 50 (by decide)).1
    · rw [(C10_blank_query _ " " 1 0 50 (by decide)).2]
      decide

/-! ## Hybrid search: Reciprocal Rank Fusion (claim C8)

From apps/backend/app/services/vector_search_service.py `hybrid_search`.  The
two candidate lists (fulltext document ids in rank order; vector hits with
their best chunk) are inputs — both SQL queries return each document at most
once (fulltext: one row per document; vector: `DISTINCT ON (d.id)`).  The
Python dicts `doc_scores` / `doc_chunks` are insertion-ordered association
lists; `sorted(…, reverse=True)` is a stable descending sort; the re-fetch
`query(Document).filter(id, owner).first()` succeeds exactly for ids in
`store`.  Scores are exact rationals. -/

structure VecHit where
  docId : Nat
  similarity : ℚ
  chunk : String
deriving DecidableEq

/-- `doc_scores[id] = doc_scores.get(id, 0) + v` on an insertion-ordered
association list. -/
def bumpScore : List (Nat × ℚ) → Nat → ℚ → List (Nat × ℚ)
  | [], id, v => [(id, v)]
  | (k, s) :: rest, id, v =>
      if k = id then (k, s + v) :: rest else (k, s) :: bumpScore rest id v

/-- One `for rank, doc in enumerate(results, start=1)` accumulation loop with
weight `w`, current rank `r`. -/
def addRanked (w : ℚ) : Nat → List Nat → List (Nat × ℚ) → List (Nat × ℚ)
  | _, [], m => m
  | r, id :: rest, m => addRanked w (r + 1) rest (bumpScore m id (w / (60 + (r : ℚ))))

/-- `if doc_id not in doc_chunks: doc_chunks[doc_id] = chunk_text`. -/
def addChunk (m : List (Nat × String)) (id : Nat) (c : String) : List (Nat × String) :=
  if m.any (fun p => p.1 == id) then m else m ++ [(id, c)]

def buildChunks : List VecHit → List (Nat × String) → List (Nat × String)
  | [], m => m
  | h :: rest, m => buildChunks rest (addChunk m h.docId h.chunk)

/-- `doc_scores[id]` (the dict has each key once). -/
def scoreOf (m : List (Nat × ℚ)) (id : Nat) : ℚ :=
  match m.find? (fun p => p.1 == id) with
  | some p => p.2
  | none => 0

/-- `doc_chunks.get(id)`. -/
def chunkOf (m : List (Nat × String)) (id : Nat) : Option String :=
  (m.find? (fun p => p.1 == id)).map (fun p => p.2)

/-- The result-assembly loop: skip ids under `min_rrf_score` (`continue`
bypasses the trailing break check), re-fetch, append, break once `limit` is
reached. -/
def fuseLoop (scores : List (Nat × ℚ)) (chunksM : List (Nat × String)) (store : List Nat)
    (minS : ℚ) (limit : Nat) : List Nat → List (Nat × ℚ × Option String) →
      List (Nat × ℚ × Option String)
  | [], acc => acc
  | id :: rest, acc =>
    if scoreOf scores id < minS then fuseLoop scores chunksM store minS limit rest acc
    else
      let acc' := if store.contains id
        then acc ++ [(id, scoreOf scores id, chunkOf chunksM id)] else acc
      if limit ≤ acc'.length then acc'
      else fuseLoop scores chunksM store minS limit rest acc'

/-- `VectorSearchService.hybrid_search`, from the two candidate lists on. -/
def hybridSearch (ftsIds : List Nat) (vec : List VecHit) (ftsW vecW minS : ℚ)
    (limit : Nat) (store : List Nat) : List (Nat × ℚ × Option String) :=
  let scores := addRanked vecW 1 (vec.map VecHit.docId) (addRanked ftsW 1 ftsIds [])
  let chunksM := buildChunks vec []
  let sortedIds := (List.insertionSort (fun a b => b.2 ≤ a.2) scores).map Prod.fst
  fuseLoop scores chunksM store minS limit sortedIds []

/-- 0-based index of the first occurrence. -/
def idxOf (id : Nat) : List Nat → Option Nat
  | [] => none
  | x :: rest => if x = id then some 0 else (idxOf id rest).map (· + 1)

/-- Modelled from claim C8's words: a document at 1-based rank `r1` in the
fulltext list and `r2` in the semantic list scores exactly
`fts_weight/(60+r1) + vector_weight/(60+r2)`; a document in only one list
receives only that list's term. -/
def rrfScoreSpec (ftsIds vecIds : List Nat) (ftsW vecW : ℚ) (id : Nat) : ℚ :=
  (match idxOf id ftsIds with
   | some i => ftsW / (60 + ((i : ℚ) + 1))
   | none => 0) +
  (match idxOf id vecIds with
   | some i => vecW / (60 + ((i : ℚ) + 1))
   | none => 0)

theorem scoreOf_nil (id : Nat) : scoreOf [] id = 0 := rfl

theorem scoreOf_cons_ne {k : Nat} (s : ℚ) (rest : List (Nat × ℚ)) {j : Nat} (h : k ≠ j) :
    scoreOf ((k, s) :: rest) j = scoreOf rest j := by
  have hb : (k == j) = false := beq_eq_false_iff_ne.mpr h
  simp [scoreOf, List.find?, hb]

theorem scoreOf_cons_self (k : Nat) (s : ℚ) (rest : List (Nat × ℚ)) :
    scoreOf ((k, s) :: rest) k = s := by
  simp [scoreOf, List.find?]

theorem scoreOf_bumpScore (m : List (Nat × ℚ)) (id : Nat) (v : ℚ) (j : Nat) :
    scoreOf (bumpScore m id v) j = scoreOf m j + (if j = id then v else 0) := by
  induction m with
  | nil =>
    by_cases hj : j = id
    · subst hj
      rw [show bumpScore [] j v = [(j, v)] from rfl, scoreOf_cons_self]
      simp [scoreOf_nil]
    · have hb : id ≠ j := fun h => hj h.symm
      rw [show bumpScore [] id v = [(id, v)] from rfl, scoreOf_cons_ne v [] hb]
      simp [scoreOf_nil, hj]
  | cons head rest ih =>
    obtain ⟨k, s⟩ := head
    by_cases hk : k = id
    · subst hk
      have hstep : bumpScore ((k, s) :: rest) k v = (k, s + v) :: rest := by
        simp [bumpScore]
      by_cases hj : j = k
      · subst hj
        rw [hstep, scoreOf_cons_self, scoreOf_cons_self]
        simp
      · have hb : k ≠ j := fun h => hj h.symm
        rw [hstep, scoreOf_cons_ne (s + v) rest hb, scoreOf_cons_ne s rest hb]
        simp [hj]
    · have hstep : bumpScore ((k, s) :: rest) id v = (k, s) :: bumpScore rest id v := by
        simp [bumpScore, hk]
      by_cases hj : j = k
      · subst hj
        rw [hstep, scoreOf_cons_self, scoreOf_cons_self]
        have hne : ¬ j = id := fun h => hk (by rw [h])
        simp [hne]
      · have hb : k ≠ j := fun h => hj h.symm
        rw [hstep, scoreOf_cons_ne s (bumpScore rest id v) hb, scoreOf_cons_ne s rest hb,
          ih]

theorem idxOf_eq_none_of_not_mem {j : Nat} : ∀ {l : List Nat}, j ∉ l → idxOf j l = none
  | [], _ => rfl
  | x :: rest, h => by
      have hx : x ≠ j := fun he => h (he ▸ List.mem_cons_self x rest)
      have hr : j ∉ rest := fun hm => h (List.mem_cons_of_mem x hm)
      simp [idxOf, hx, idxOf_eq_none_of_not_mem hr]

theorem scoreOf_addRanked (w : ℚ) :
    ∀ (ids : List Nat) (r : Nat) (m : List (Nat × ℚ)) (j : Nat), ids.Nodup →
      scoreOf (addRanked w r ids m) j =
        scoreOf m j + (match idxOf j ids with
          | some i => w / (60 + ((r : ℚ) + (i : ℚ)))
          | none => 0)
  | [], r, m, j, _ => by simp [addRanked, idxOf]
  | id :: rest, r, m, j, hnd => by
      rw [show addRanked w r (id :: rest) m =
          addRanked w (r + 1) rest (bumpScore m id (w / (60 + (r : ℚ)))) from rfl]
      rw [scoreOf_addRanked w rest (r + 1) _ j (List.nodup_cons.mp hnd).2]
      rw [scoreOf_bumpScore]
      by_cases hj : j = id
      · subst hj
        have hnotin : j ∉ rest := (List.nodup_cons.mp hnd).1
        rw [idxOf_eq_none_of_not_mem hnotin]
        simp [idxOf]
      · have hne : id ≠ j := fun h => hj h.symm
        have hstep : idxOf j (id :: rest) = (idxOf j rest).map (· + 1) := by
          simp [idxOf, hne]
        rw [hstep, if_neg hj, add_zero]
        rcases hix : idxOf j rest with _ | i
        · rfl
        · show scoreOf m j + w / (60 + (((r + 1 : ℕ) : ℚ) + (i : ℚ))) =
            scoreOf m j + w / (60 + ((r : ℚ) + ((i + 1 : ℕ) : ℚ)))
          push_cast
          ring_nf

theorem scoreOf_hybrid (ftsIds vecIds : List Nat) (ftsW vecW : ℚ) (j : Nat)
    (hfts : ftsIds.Nodup) (hvec : vecIds.Nodup) :
    scoreOf (addRanked vecW 1 vecIds (addRanked ftsW 1 ftsIds [])) j =
      rrfScoreSpec ftsIds vecIds ftsW vecW j := by
  rw [scoreOf_addRanked vecW vecIds 1 _ j hvec,
    scoreOf_addRanked ftsW ftsIds 1 [] j hfts, scoreOf_nil]
  unfold rrfScoreSpec
  rcases idxOf j ftsIds with _ | i <;> rcases idxOf j vecIds with _ | k <;>
    · push_cast
      ring_nf

theorem keys_bumpScore (m : List (Nat × ℚ)) (id : Nat) (v : ℚ) :
    (bumpScore m id v).map Prod.fst =
      if id ∈ m.map Prod.fst then m.map Prod.fst else m.map Prod.fst ++ [id] := by
  induction m with
  | nil => simp [bumpScore]
  | cons head rest ih =>
    obtain ⟨k, s⟩ := head
    by_cases hk : k = id
    · subst hk
      simp [bumpScore]
    · have hne : id ≠ k := fun h => hk h.symm
      simp only [bumpScore, if_neg hk, List.map_cons, ih]
      by_cases hmem : id ∈ rest.map Prod.fst
      · simp [hmem, hne]
      · simp [hmem, hne]

theorem nodup_keys_bumpScore {m : List (Nat × ℚ)} (h : (m.map Prod.fst).Nodup)
    (id : Nat) (v : ℚ) : ((bumpScore m id v).map Prod.fst).Nodup := by
  rw [keys_bumpScore]
  by_cases hmem : id ∈ m.map Prod.fst
  · rw [if_pos hmem]
    exact h
  · rw [if_neg hmem]
    rw [List.nodup_append]
    exact ⟨h, List.nodup_singleton id, by simpa using hmem⟩

theorem nodup_keys_addRanked (w : ℚ) :
    ∀ (ids : List Nat) (r : Nat) (m : List (Nat × ℚ)),
      (m.map Prod.fst).Nodup → ((addRanked w r ids m).map Prod.fst).Nodup
  | [], _, _, h => h
  | id :: rest, r, _, h =>
      nodup_keys_addRanked w rest (r + 1) _ (nodup_keys_bumpScore h id _)

theorem scoreOf_of_mem :
    ∀ {m : List (Nat × ℚ)}, (m.map Prod.fst).Nodup →
      ∀ {k : Nat} {s : ℚ}, (k, s) ∈ m → scoreOf m k = s := by
  intro m
  induction m with
  | nil => intro _ k s hmem; simp at hmem
  | cons head rest ih =>
    obtain ⟨a, b⟩ := head
    intro hnd k s hmem
    have hnd' : a ∉ rest.map Prod.fst ∧ (rest.map Prod.fst).Nodup := by
      rw [List.map_cons, List.nodup_cons] at hnd
      exact hnd
    rcases List.mem_cons.mp hmem with he | hm
    · have h1 : a = k := congrArg Prod.fst he.symm
      have h2 : b = s := congrArg Prod.snd he.symm
      rw [← h1, ← h2]
      exact scoreOf_cons_self a b rest
    · have hk_mem : k ∈ rest.map Prod.fst := List.mem_map_of_mem Prod.fst hm
      have hka : a ≠ k := fun he => hnd'.1 (he ▸ hk_mem)
      rw [scoreOf_cons_ne b rest hka]
      exact ih hnd'.2 hm

theorem chunkOf_addChunk (m : List (Nat × String)) (id : Nat) (c : String) (j : Nat) :
    chunkOf (addChunk m id c) j =
      match chunkOf m j with
      | some x => some x
      | none => if id = j then some c else none := by
  unfold addChunk
  by_cases hany : m.any (fun p => p.1 == id) = true
  · rw [if_pos hany]
    rcases hc : chunkOf m j with _ | x
    · by_cases hij : id = j
      · subst hij
        exfalso
        obtain ⟨p, hp, hpe⟩ := List.any_eq_true.mp hany
        rcases hfind : m.find? (fun q => q.1 == id) with _ | q
        · rw [List.find?_eq_none] at hfind
          exact absurd hpe (by simpa using hfind p hp)
        · unfold chunkOf at hc
          rw [hfind] at hc
          simp at hc
      · rw [if_neg hij]
    · rfl
  · rw [if_neg hany]
    unfold chunkOf
    rw [List.find?_append]
    rcases hfind : m.find? (fun p => p.1 == j) with _ | p
    · by_cases hij : id = j
      · subst hij
        rw [hfind]
        simp [List.find?]
      · have hb : (id == j) = false := beq_eq_false_iff_ne.mpr hij
        rw [hfind]
        simp [List.find?, hb, hij]
    · simp [chunkOf, hfind]

theorem chunkOf_buildChunks :
    ∀ (vec : List VecHit) (m : List (Nat × String)) (id : Nat),
      chunkOf (buildChunks vec m) id =
        match chunkOf m id with
        | some c => some c
        | none => (vec.find? (fun h => h.docId == id)).map VecHit.chunk
  | [], m, id => by
      rcases hc : chunkOf m id with _ | c <;> simp [buildChunks, hc]
  | h :: rest, m, id => by
      rw [show buildChunks (h :: rest) m = buildChunks rest (addChunk m h.docId h.chunk)
        from rfl]
      rw [chunkOf_buildChunks rest _ id, chunkOf_addChunk]
      rcases hc : chunkOf m id with _ | c
      · by_cases hij : h.docId = id
        · rw [if_pos hij]
          have hb : (h.docId == id) = true := by simp [hij]
          simp [List.find?, hb]
        · rw [if_neg hij]
          have hb : (h.docId == id) = false := beq_eq_false_iff_ne.mpr hij
          simp [List.find?, hb]
      · rfl

theorem fuseLoop_props (scores : List (Nat × ℚ)) (chunksM : List (Nat × String))
    (store : List Nat) (minS : ℚ) (limit : Nat) :
    ∀ (ids : List Nat) (acc : List (Nat × ℚ × Option String)),
      ∃ extra, fuseLoop scores chunksM store minS limit ids acc = acc ++ extra ∧
        (extra.map Prod.fst).Sublist ids ∧
        ∀ e ∈ extra, e.2.1 = scoreOf scores e.1 ∧ minS ≤ e.2.1 ∧
          e.2.2 = chunkOf chunksM e.1 ∧ e.1 ∈ store
  | [], acc => ⟨[], by simp [fuseLoop], by simp, by simp⟩
  | id :: rest, acc => by
      by_cases hmin : scoreOf scores id < minS
      · obtain ⟨extra, he, hs, hp⟩ := fuseLoop_props scores chunksM store minS limit rest acc
        refine ⟨extra, ?_, hs.cons id, hp⟩
        rw [show fuseLoop scores chunksM store minS limit (id :: rest) acc =
          fuseLoop scores chunksM store minS limit rest acc from by
            rw [fuseLoop, if_pos hmin]]
        exact he
      · by_cases hstore : store.contains id
        · by_cases hbreak : limit ≤ (acc ++ [(id, scoreOf scores id, chunkOf chunksM id)]).length
          · refine ⟨[(id, scoreOf scores id, chunkOf chunksM id)], ?_, ?_, ?_⟩
            · rw [fuseLoop, if_neg hmin]
              simp only [hstore, if_true]
              rw [if_pos hbreak]
            · simp only [List.map_cons, List.map_nil]
              exact List.Sublist.cons₂ id (List.nil_sublist rest)
            · intro e hee
              have : e = (id, scoreOf scores id, chunkOf chunksM id) := by simpa using hee
              subst this
              exact ⟨rfl, not_lt.mp hmin, rfl, by simpa using hstore⟩
          · obtain ⟨extra, he, hs, hp⟩ := fuseLoop_props scores chunksM store minS limit rest
              (acc ++ [(id, scoreOf scores id, chunkOf chunksM id)])
            refine ⟨(id, scoreOf scores id, chunkOf chunksM id) :: extra, ?_, ?_, ?_⟩
            · rw [fuseLoop, if_neg hmin]
              simp only [hstore, if_true]
              rw [if_neg hbreak, he]
              simp
            · simpa using List.Sublist.cons₂ id hs
            · intro e hee
              rcases List.mem_cons.mp hee with heq1 | hm
              · subst heq1
                exact ⟨rfl, not_lt.mp hmin, rfl, by simpa using hstore⟩
              · exact hp e hm
        · by_cases hbreak : limit ≤ acc.length
          · refine ⟨[], ?_, by simp, by simp⟩
            rw [fuseLoop, if_neg hmin]
            simp only [hstore, if_false]
            rw [if_pos (by simpa using hbreak)]
            simp
          · obtain ⟨extra, he, hs, hp⟩ :=
              fuseLoop_props scores chunksM store minS limit rest acc
            refine ⟨extra, ?_, hs.cons id, hp⟩
            rw [fuseLoop, if_neg hmin]
            simp only [hstore, if_false]
            rw [if_neg (by simpa using hbreak)]
            exact he

theorem fuseLoop_length (scores : List (Nat × ℚ)) (chunksM : List (Nat × String))
    (store : List Nat) (minS : ℚ) (limit : Nat) :
    ∀ (ids : List Nat) (acc : List (Nat × ℚ × Option String)), acc.length < limit →
      (fuseLoop scores chunksM store minS limit ids acc).length ≤ limit
  | [], acc, h => by
      rw [fuseLoop]
      omega
  | id :: rest, acc, h => by
      rw [fuseLoop]
      by_cases hmin : scoreOf scores id < minS
      · rw [if_pos hmin]
        exact fuseLoop_length scores chunksM store minS limit rest acc h
      · rw [if_neg hmin]
        by_cases hstore : store.contains id
        · simp only [hstore, if_true]
          by_cases hbreak :
              limit ≤ (acc ++ [(id, scoreOf scores id, chunkOf chunksM id)]).length
          · rw [if_pos hbreak]
            simp only [List.length_append, List.length_singleton]
            omega
          · rw [if_neg hbreak]
            exact fuseLoop_length scores chunksM store minS limit rest _ (by
              simp only [List.length_append, List.length_singleton] at hbreak ⊢
              omega)
        · rw [if_neg hstore]
          by_cases hbreak : limit ≤ acc.length
          · rw [if_pos hbreak]
            omega
          · rw [if_neg hbreak]
            exact fuseLoop_length scores chunksM store minS limit rest acc (by omega)

instance : IsTotal (Nat × ℚ) (fun a b => b.2 ≤ a.2) :=
  ⟨fun a b => le_total b.2 a.2⟩

instance : IsTrans (Nat × ℚ) (fun a b => b.2 ≤ a.2) :=
  ⟨fun _ _ _ h1 h2 => le_trans h2 h1⟩

/-- C8: in `hybrid_search`, every returned entry carries the fusion score
`fts_weight/(60+r1) + vector_weight/(60+r2)` where `r1`, `r2` are the
document's 1-based ranks in the fulltext and semantic candidate lists (a
document in only one list receives only that list's term); entries scoring
below `min_rrf_score` are excluded; every entry's chunk is the vector-side
chunk text when one exists; only documents found by the owner re-fetch are
returned; at most `limit` entries come back, in descending score order. -/
theorem C8_hybrid_rrf (ftsIds : List Nat) (vec : List VecHit) (ftsW vecW minS : ℚ)
    (limit : Nat) (store : List Nat)
    (hfts : ftsIds.Nodup) (hvec : (vec.map VecHit.docId).Nodup) (hlim : 1 ≤ limit) :
    (∀ e ∈ hybridSearch ftsIds vec ftsW vecW minS limit store,
        e.2.1 = rrfScoreSpec ftsIds (vec.map VecHit.docId) ftsW vecW e.1 ∧
        minS ≤ e.2.1 ∧
        e.2.2 = (vec.find? (fun h => h.docId == e.1)).map VecHit.chunk ∧
        e.1 ∈ store) ∧
    (hybridSearch ftsIds vec ftsW vecW minS limit store).length ≤ limit ∧
    (hybridSearch ftsIds vec ftsW vecW minS limit store).Pairwise
      (fun a b => b.2.1 ≤ a.2.1) := by
  have hnodupKeys : ((addRanked vecW 1 (vec.map VecHit.docId)
      (addRanked ftsW 1 ftsIds [])).map Prod.fst).Nodup :=
    nodup_keys_addRanked vecW (vec.map VecHit.docId) 1 _
      (nodup_keys_addRanked ftsW ftsIds 1 [] (by simp))
  obtain ⟨extra, he, hsub, hprops⟩ :=
    fuseLoop_props (addRanked vecW 1 (vec.map VecHit.docId) (addRanked ftsW 1 ftsIds []))
      (buildChunks vec []) store minS limit
      ((List.insertionSort (fun a b => b.2 ≤ a.2)
        (addRanked vecW 1 (vec.map VecHit.docId) (addRanked ftsW 1 ftsIds []))).map
          Prod.fst) []
  have hres : hybridSearch ftsIds vec ftsW vecW minS limit store = extra := by
    rw [show hybridSearch ftsIds vec ftsW vecW minS limit store =
        fuseLoop (addRanked vecW 1 (vec.map VecHit.docId) (addRanked ftsW 1 ftsIds []))
          (buildChunks vec []) store minS limit
          ((List.insertionSort (fun a b => b.2 ≤ a.2)
            (addRanked vecW 1 (vec.map VecHit.docId) (addRanked ftsW 1 ftsIds []))).map
              Prod.fst) [] from rfl, he]
    simp
  refine ⟨?_, ?_, ?_⟩
  · intro e hee
    rw [hres] at hee
    obtain ⟨h1, h2, h3, h4⟩ := hprops e hee
    refine ⟨?_, h2, ?_, h4⟩
    · rw [h1, scoreOf_hybrid ftsIds (vec.map VecHit.docId) ftsW vecW e.1 hfts hvec]
    · rw [h3, chunkOf_buildChunks vec [] e.1]
      rfl
  · rw [hres]
    have hlen := fuseLoop_length (addRanked vecW 1 (vec.map VecHit.docId)
        (addRanked ftsW 1 ftsIds [])) (buildChunks vec []) store minS limit
      ((List.insertionSort (fun a b => b.2 ≤ a.2)
        (addRanked vecW 1 (vec.map VecHit.docId) (addRanked ftsW 1 ftsIds []))).map
          Prod.fst) [] (by simp only [List.length_nil]; omega)
    rw [he] at hlen
    simpa using hlen
  · rw [hres]
    have hsorted : (List.insertionSort (fun a b => b.2 ≤ a.2)
        (addRanked vecW 1 (vec.map VecHit.docId) (addRanked ftsW 1 ftsIds []))).Pairwise
          (fun a b => b.2 ≤ a.2) :=
      List.sorted_insertionSort _ _
    have hperm := List.perm_insertionSort (fun a b => b.2 ≤ a.2)
      (addRanked vecW 1 (vec.map VecHit.docId) (addRanked ftsW 1 ftsIds []))
    have hscore : ∀ p ∈ List.insertionSort (fun a b => b.2 ≤ a.2)
        (addRanked vecW 1 (vec.map VecHit.docId) (addRanked ftsW 1 ftsIds [])),
        scoreOf (addRanked vecW 1 (vec.map VecHit.docId) (addRanked ftsW 1 ftsIds []))
          p.1 = p.2 := by
      intro p hp
      exact scoreOf_of_mem hnodupKeys (hperm.mem_iff.mp hp)
    have hpair1 : (List.insertionSort (fun a b => b.2 ≤ a.2)
        (addRanked vecW 1 (vec.map VecHit.docId) (addRanked ftsW 1 ftsIds []))).Pairwise
          (fun a b =>
            scoreOf (addRanked vecW 1 (vec.map VecHit.docId)
              (addRanked ftsW 1 ftsIds [])) b.1 ≤
            scoreOf (addRanked vecW 1 (vec.map VecHit.docId)
              (addRanked ftsW 1 ftsIds [])) a.1) := by
      refine hsorted.imp_of_mem ?_
      intro a b ha hb hab
      rw [hscore a ha, hscore b hb]
      exact hab
    have hpair2 : ((List.insertionSort (fun a b => b.2 ≤ a.2)
        (addRanked vecW 1 (vec.map VecHit.docId) (addRanked ftsW 1 ftsIds []))).map
          Prod.fst).Pairwise
          (fun i j =>
            scoreOf (addRanked vecW 1 (vec.map VecHit.docId)
              (addRanked ftsW 1 ftsIds [])) j ≤
            scoreOf (addRanked vecW 1 (vec.map VecHit.docId)
              (addRanked ftsW 1 ftsIds [])) i) :=
      (List.pairwise_map).mpr hpair1
    have hpair3 := List.Pairwise.sublist hsub hpair2
    have hpair4 : extra.Pairwise (fun a b =>
        scoreOf (addRanked vecW 1 (vec.map VecHit.docId)
          (addRanked ftsW 1 ftsIds [])) b.1 ≤
        scoreOf (addRanked vecW 1 (vec.map VecHit.docId)
          (addRanked ftsW 1 ftsIds [])) a.1) :=
      (List.pairwise_map).mp hpair3
    refine hpair4.imp_of_mem ?_
    intro a b ha hb hab
    rw [(hprops a ha).1, (hprops b hb).1]
    exact hab

theorem C8_hybrid_rrf_witness :
    (([1, 2] : List Nat).Nodup ∧
      (([⟨3, (9 : ℚ)/10, "c3"⟩, ⟨1, (8 : ℚ)/10, "c1"⟩] : List VecHit).map
        VecHit.docId).Nodup ∧
      (1 : Nat) ≤ 10) ∧
    ((∀ e ∈ hybridSearch [1, 2] [⟨3, (9 : ℚ)/10, "c3"⟩, ⟨1, (8 : ℚ)/10, "c1"⟩]
        (1/2) (1/2) (5/1000) 10 [1, 2, 3],
        e.2.1 = rrfScoreSpec [1, 2]
          (([⟨3, (9 : ℚ)/10, "c3"⟩, ⟨1, (8 : ℚ)/10, "c1"⟩] : List VecHit).map
            VecHit.docId) (1/2) (1/2) e.1 ∧
        (5 : ℚ)/1000 ≤ e.2.1 ∧
        e.2.2 = (([⟨3, (9 : ℚ)/10, "c3"⟩, ⟨1, (8 : ℚ)/10, "c1"⟩] : List VecHit).find?
          (fun h => h.docId == e.1)).map VecHit.chunk ∧
        e.1 ∈ [1, 2, 3]) ∧
      (hybridSearch [1, 2] [⟨3, (9 : ℚ)/10, "c3"⟩, ⟨1, (8 : ℚ)/10, "c1"⟩]
        (1/2) (1/2) (5/1000) 10 [1, 2, 3]).length ≤ 10 ∧
      (hybridSearch [1, 2] [⟨3, (9 : ℚ)/10, "c3"⟩, ⟨1, (8 : ℚ)/10, "c1"⟩]
        (1/2) (1/2) (5/1000) 10 [1, 2, 3]).Pairwise (fun a b => b.2.1 ≤ a.2.1)) :=
  ⟨⟨by decide, by decide, by decide⟩,
    C8_hybrid_rrf [1, 2] [⟨3, (9 : ℚ)/10, "c3"⟩, ⟨1, (8 : ℚ)/10, "c1"⟩]
      (1/2) (1/2) (5/1000) 10 [1, 2, 3] (by decide) (by decide) (by decide)⟩

end Cartulary


